/-
Verification of the maxminddb-writer encoder stack.

Shallow embedding of the Rust sources:
  * serializer.rs : control-byte framing (write_control) and the
    type-length-value encoder for structured values,
  * node.rs       : the bit-indexed binary trie (NodeTree) and its
    fixed-width record emission,
  * metadata.rs   : RecordSize selection and the Metadata record,
  * data.rs       : the append-only data section (Datastore),
  * lib.rs        : the Database coordinator (update_size, write_to),
  * paths.rs      : trailing_zeros, octets_with_mask (CIDR decomposition)
    and the IP bit-path iterator.

Machine integers are modelled as Nat with explicit `% 2^w` at the points
where the Rust code casts or wraps.  Fallible operations (Vec indexing
panics, checked arithmetic, u32::try_from().unwrap()) are modelled with
Option, `none` standing for a panic.  Recursive functions whose Rust
counterparts are loops are given a fuel argument equal to a bound on the
iteration count, so that every definition reduces in the kernel.
-/
import Mathlib

namespace Mmdb

/-- Big-endian byte representation of `v` on exactly `n` bytes, as produced
by Rust `to_be_bytes` (the value is implicitly taken mod `256^n`). -/
def beBytes : Nat → Nat → List Nat
  | 0, _ => []
  | n+1, v => beBytes n (v / 256) ++ [v % 256]

/-- Big-endian value of a byte list: `foldl (acc * 256 + b)`. -/
def bytesToNat (s : List Nat) : Nat :=
  s.foldl (fun acc b => acc * 256 + b) 0

/-- Drop leading zero bytes, as the `strip_prefix(&[0])` loop of
`AsBigEndianSlice` in serializer.rs does. -/
def stripZeroBytes : List Nat → List Nat
  | [] => []
  | b :: rest => if b = 0 then stripZeroBytes rest else b :: rest

/-- Errors of serializer.rs (the IO case cannot arise with a Vec sink). -/
inductive SerErr where
  | custom
  | unknownLength
  | lengthOutOfRange
  | integerOutOfRange
deriving DecidableEq

/-- serializer.rs `Serializer::write_control`, writing into a Vec sink:
returns the emitted byte sequence, or the error.  Type ids are the numeric
codes of `TypeId` (String=2 ... Float=15).  The Rust cast `type_id as u8`
followed by `<< 5` is `typeId * 32 % 256`. -/
def writeControl (typeId : Nat) (size : Nat) : Except SerErr (List Nat) :=
  if size > 16843036 then .error .lengthOutOfRange
  else
    let first : Nat := if typeId ≤ 7 then typeId * 32 % 256 else 0
    let second : List Nat := if typeId ≤ 7 then [] else [typeId - 7]
    let bcl : Nat × Nat × Nat :=
      if size < 29 then (0, 0, first ||| size)
      else if size < 285 then (1, size - 29, first ||| 29)
      else if size < 65821 then (2, size - 285, first ||| 30)
      else (3, size - 65821, first ||| 31)
    let be := beBytes 8 bcl.2.1
    .ok ([bcl.2.2] ++ second ++ be.drop (be.length - bcl.1))

/-- Payload values the serializer accepts (the variants exercised by this
repository; floats are not needed by any claim).  Strings carry their
UTF-8 bytes, since the Rust side measures and writes `str` as bytes. -/
inductive Value where
  | boolean (b : Bool)
  | u16 (v : Nat)
  | u32 (v : Nat)
  | u64 (v : Nat)
  | u128 (v : Nat)
  | i32 (v : Int)
  | i64 (v : Int)
  | str (bytes : List Nat)
  | bytes (bs : List Nat)
  | arr (elems : List Value)
  | map (entries : List (Value × Value))

/-- Append the result of `writeControl` to the buffer; on error the buffer
is unchanged (the size check precedes every write in the source). -/
def serControl (buf : List Nat) (typeId size : Nat) : List Nat × Option SerErr :=
  match writeControl typeId size with
  | .ok bs => (buf ++ bs, none)
  | .error e => (buf, some e)

/-- Write `payload` after a successful control sequence. -/
def thenWrite (r : List Nat × Option SerErr) (payload : List Nat) :
    List Nat × Option SerErr :=
  match r with
  | (buf, none) => (buf ++ payload, none)
  | e => e

/-- Two's-complement big-endian bytes of an i32 value. -/
def i32beBytes (v : Int) : List Nat :=
  beBytes 4 (v % (2 ^ 32 : Int)).toNat

mutual

/-- serializer.rs serialization into a Vec sink.  Returns the buffer as
left by the serializer (partial bytes stay on error) and the error if
any.  Mirrors `serialize_bool`, `serialize_u16/u32/u64/u128` (via
`as_big_endian_slice`), `serialize_i32/i64` (i64 narrows to i32 or fails
with IntegerOutOfRange), `serialize_str`, `serialize_bytes`,
`serialize_seq` and `serialize_map` (length-prefixed, elements in order,
stopping at the first error). -/
def serValue : Value → List Nat → List Nat × Option SerErr
  | .boolean b, buf => serControl buf 14 (if b then 1 else 0)
  | .u16 v, buf =>
      thenWrite (serControl buf 5 (stripZeroBytes (beBytes 2 v)).length)
        (stripZeroBytes (beBytes 2 v))
  | .u32 v, buf =>
      thenWrite (serControl buf 6 (stripZeroBytes (beBytes 4 v)).length)
        (stripZeroBytes (beBytes 4 v))
  | .u64 v, buf =>
      thenWrite (serControl buf 9 (stripZeroBytes (beBytes 8 v)).length)
        (stripZeroBytes (beBytes 8 v))
  | .u128 v, buf =>
      thenWrite (serControl buf 10 (stripZeroBytes (beBytes 16 v)).length)
        (stripZeroBytes (beBytes 16 v))
  | .i32 v, buf => thenWrite (serControl buf 8 4) (i32beBytes v)
  | .i64 v, buf =>
      if v < -(2 ^ 31 : Int) ∨ (2 ^ 31 : Int) ≤ v then (buf, some .integerOutOfRange)
      else thenWrite (serControl buf 8 4) (i32beBytes v)
  | .str s, buf => thenWrite (serControl buf 2 s.length) s
  | .bytes bs, buf => thenWrite (serControl buf 4 bs.length) bs
  | .arr elems, buf =>
      match serControl buf 11 elems.length with
      | (buf2, none) => serSeq elems buf2
      | e => e
  | .map entries, buf =>
      match serControl buf 7 entries.length with
      | (buf2, none) => serPairs entries buf2
      | e => e

/-- Serialize sequence elements in order, stopping at the first error. -/
def serSeq : List Value → List Nat → List Nat × Option SerErr
  | [], buf => (buf, none)
  | v :: rest, buf =>
      match serValue v buf with
      | (buf2, none) => serSeq rest buf2
      | e => e

/-- Serialize map entries in order (key then value), stopping at the
first error. -/
def serPairs : List (Value × Value) → List Nat → List Nat × Option SerErr
  | [], buf => (buf, none)
  | (k, v) :: rest, buf =>
      match serValue k buf with
      | (buf2, none) =>
          match serValue v buf2 with
          | (buf3, none) => serPairs rest buf3
          | e => e
      | e => e

end

example : serValue (.u64 1) [] = ([1, 2, 1], none) := rfl
example : serValue (.u64 0) [] = ([0, 2], none) := rfl
example : serValue (.arr [.u16 3, .boolean true]) [] =
    ([2, 4, 161, 3, 1, 7], none) := by decide

/-- node.rs `Target`: a trie edge points at a node (by index into the node
vector) or at data (by offset into the data section). -/
inductive Target where
  | node (index : Nat)
  | data (index : Nat)
deriving DecidableEq

/-- node.rs `Target::to_ptr`, using data.rs `DataRef::data_section_offset`
(`node_count + 16 + index`). -/
def Target.toPtr (t : Target) (nodeCount : Nat) : Nat :=
  match t with
  | .node i => i
  | .data d => nodeCount + 16 + d

/-- node.rs `Node`: a pair of optional targets, indexed by a bit
(false = slot 0, true = slot 1). -/
structure Node where
  left : Option Target
  right : Option Target
deriving DecidableEq

/-- Indexing `Node` by a bit, as `Index<bool> for Node`. -/
def Node.get (n : Node) (b : Bool) : Option Target :=
  if b then n.right else n.left

/-- Updating one slot of a `Node`, as `IndexMut<bool> for Node`. -/
def Node.setEdge (n : Node) (b : Bool) (t : Option Target) : Node :=
  if b then { n with right := t } else { n with left := t }

/-- The loop of node.rs `NodeTree::insert`, walking bit by bit.  `index`
is the current node, `last` the pending bit; `path` holds the bits still
to come.  On exhaustion the final edge is overwritten with `Data`.
Indexing panics (out-of-bounds `self.nodes[index]`) are `none`.  The
source pushes the split node before redirecting the old edge; the
resulting vector is the same as appending after the `set` done here. -/
def insertWalk : List Node → Nat → Bool → List Bool → Nat → Option (List Node)
  | nodes, index, last, [], dat =>
      match nodes[index]? with
      | none => none
      | some nd => some (nodes.set index (nd.setEdge last (some (.data dat))))
  | nodes, index, last, bit :: rest, dat =>
      match nodes[index]? with
      | none => none
      | some nd =>
          match nd.get last with
          | some (.node newIndex) => insertWalk nodes newIndex bit rest dat
          | t =>
              insertWalk
                (nodes.set index (nd.setEdge last (some (.node nodes.length)))
                  ++ [Node.mk t t])
                nodes.length bit rest dat

/-- node.rs `NodeTree::insert`: an empty path inserts nothing; otherwise
walk from the root (index 0). -/
def treeInsert (nodes : List Node) (path : List Bool) (dat : Nat) :
    Option (List Node) :=
  match path with
  | [] => some nodes
  | first :: rest => insertWalk nodes 0 first rest dat

/-- node.rs `NodeTree::default`: one root node with both edges unset. -/
def treeDefault : List Node := [Node.mk none none]

/-- metadata.rs `RecordSize`. -/
inductive RecordSize where
  | small
  | medium
  | large
deriving DecidableEq

/-- metadata.rs `RecordSize::choose`. -/
def RecordSize.choose (maxPtrValue : Nat) : RecordSize :=
  if maxPtrValue < 1 <<< 24 then .small
  else if maxPtrValue < 1 <<< 28 then .medium
  else .large

/-- The u16 written for a `RecordSize` by its Serialize impl. -/
def RecordSize.bits : RecordSize → Nat
  | .small => 24
  | .medium => 28
  | .large => 32

/-- node.rs `Node::write_to`: resolve the two pointers (unset edges give
the sentinel `node_count`) and pack them at the chosen record size.  Every
`as u8` cast is `% 256`. -/
def Node.writeRecord (n : Node) (rs : RecordSize) (nodeCount : Nat) : List Nat :=
  let p0 := (Option.map (Target.toPtr · nodeCount) (n.get false)).getD nodeCount
  let p1 := (Option.map (Target.toPtr · nodeCount) (n.get true)).getD nodeCount
  match rs with
  | .small =>
      [p0 >>> 16 % 256, p0 >>> 8 % 256, p0 % 256,
       p1 >>> 16 % 256, p1 >>> 8 % 256, p1 % 256]
  | .medium =>
      [p0 >>> 20 % 256, p0 >>> 12 % 256, p0 >>> 4 % 256,
       (p0 <<< 4 % 256) ||| (p1 >>> 24 % 256),
       p1 >>> 16 % 256, p1 >>> 8 % 256, p1 % 256]
  | .large =>
      [p0 >>> 24 % 256, p0 >>> 16 % 256, p0 >>> 8 % 256, p0 % 256,
       p1 >>> 24 % 256, p1 >>> 16 % 256, p1 >>> 8 % 256, p1 % 256]

/-- node.rs `NodeTree::write_to`: one record per node, in allocation
order, each computed against `self.len()`. -/
def treeWriteTo (nodes : List Node) (rs : RecordSize) : List Nat :=
  (nodes.map (fun n => n.writeRecord rs nodes.length)).flatten

/-- metadata.rs `IpVersion`. -/
inductive IpVersion where
  | v4
  | v6
deriving DecidableEq

/-- The u16 written for an `IpVersion` by its Serialize impl. -/
def IpVersion.num : IpVersion → Nat
  | .v4 => 4
  | .v6 => 6

/-- metadata.rs `Metadata`.  Strings are carried as UTF-8 byte lists; the
`description` HashMap is carried together with an iteration order, as the
list of its entries in the order the HashMap yields them (that order is
not determined by the sequence of inserts that built the map). -/
structure Metadata where
  node_count : Nat
  record_size : RecordSize
  ip_version : IpVersion
  database_type : List Nat
  languages : List (List Nat)
  binary_format_major_version : Nat
  binary_format_minor_version : Nat
  build_epoch : Nat
  description : List (List Nat × List Nat)
deriving DecidableEq

/-- UTF-8 bytes of an ASCII string literal (all field names are ASCII). -/
def asciiBytes (s : String) : List Nat :=
  s.toList.map Char.toNat

/-- metadata.rs `Metadata::default`. -/
def Metadata.default : Metadata :=
  { node_count := 0
    record_size := .small
    ip_version := .v4
    database_type := []
    languages := []
    binary_format_major_version := 0
    binary_format_minor_version := 0
    build_epoch := 0
    description := [] }

/-- What the derived Serialize impl of `Metadata` hands to the serializer:
a map of nine fields, each a field-name key followed by the field value;
`u32` for node_count, `u16` for record_size (24/28/32), ip_version (4/6)
and the two format versions, strings and arrays of strings for
database_type and languages, `u64` for build_epoch, and a string-to-string
map for description in HashMap iteration order. -/
def metadataValue (m : Metadata) : Value :=
  .map
    [ (.str (asciiBytes "node_count"), .u32 m.node_count),
      (.str (asciiBytes "record_size"), .u16 m.record_size.bits),
      (.str (asciiBytes "ip_version"), .u16 m.ip_version.num),
      (.str (asciiBytes "database_type"), .str m.database_type),
      (.str (asciiBytes "languages"), .arr (m.languages.map .str)),
      (.str (asciiBytes "binary_format_major_version"),
        .u16 m.binary_format_major_version),
      (.str (asciiBytes "binary_format_minor_version"),
        .u16 m.binary_format_minor_version),
      (.str (asciiBytes "build_epoch"), .u64 m.build_epoch),
      (.str (asciiBytes "description"),
        .map (m.description.map (fun p => (.str p.1, .str p.2)))) ]

/-- metadata.rs `METADATA_START_MARKER`. -/
def metadataStartMarker : List Nat :=
  [0xab, 0xcd, 0xef] ++ asciiBytes "MaxMind.com"

/-- lib.rs `Database` (the Datastore is its byte vector). -/
structure Database where
  nodes : List Node
  data : List Nat
  metadata : Metadata
deriving DecidableEq

/-- lib.rs `Database::default`. -/
def Database.default : Database :=
  { nodes := treeDefault, data := [], metadata := Metadata.default }

/-- lib.rs `Database::update_size`: recompute node_count (u32, so the
`try_into().unwrap()` panics — `none` — at 2^32 nodes) and record_size
from the current trie and data sizes. -/
def Database.updateSize (db : Database) : Option Database :=
  if db.nodes.length < 2 ^ 32 then
    some { db with
      metadata := { db.metadata with
        node_count := db.nodes.length
        record_size := RecordSize.choose (db.nodes.length + db.data.length + 16) } }
  else none

/-- data.rs `Datastore::insert`: remember the pre-insert length, serialize
into the store (partial bytes stay on error), return the old length as the
`DataRef`. -/
def datastoreInsert (store : List Nat) (v : Value) : List Nat × Except SerErr Nat :=
  match serValue v store with
  | (store2, none) => (store2, .ok store.length)
  | (store2, some e) => (store2, .error e)

/-- lib.rs `Database::insert_value` followed by its `update_size`. -/
def Database.insertValue (db : Database) (v : Value) :
    Option (Database × Except SerErr Nat) :=
  match datastoreInsert db.data v with
  | (store2, res) =>
      (Database.updateSize { db with data := store2 }).map (fun db2 => (db2, res))

/-- lib.rs `Database::insert_node` followed by its `update_size`. -/
def Database.insertNode (db : Database) (path : List Bool) (dat : Nat) :
    Option Database :=
  match treeInsert db.nodes path dat with
  | none => none
  | some ns => Database.updateSize { db with nodes := ns }

/-- The mutations a caller can apply to a `Database`: the two inserts, and
assignment of the publicly writable metadata fields (node_count and
record_size are pub(crate) and cannot be touched from outside). -/
inductive DbOp where
  | insertVal (v : Value)
  | insertNd (path : List Bool) (dat : Nat)
  | setMeta (ip : IpVersion) (dbType : List Nat) (langs : List (List Nat))
      (major minor epoch : Nat) (descr : List (List Nat × List Nat))

/-- Whether an op is one of the two inserts. -/
def DbOp.isInsert : DbOp → Prop
  | .insertVal _ => True
  | .insertNd _ _ => True
  | .setMeta _ _ _ _ _ _ _ => False

/-- Apply one op. -/
def DbOp.apply (db : Database) : DbOp → Option Database
  | .insertVal v => (db.insertValue v).map Prod.fst
  | .insertNd path dat => db.insertNode path dat
  | .setMeta ip dbType langs major minor epoch descr =>
      some { db with metadata := { db.metadata with
        ip_version := ip
        database_type := dbType
        languages := langs
        binary_format_major_version := major
        binary_format_minor_version := minor
        build_epoch := epoch
        description := descr } }

/-- Run a call sequence from `Database::default`. -/
def buildOps (ops : List DbOp) : Option Database :=
  ops.foldl (fun acc op => acc.bind (fun db => op.apply db)) (some Database.default)

/-- lib.rs `Database::write_to` into a Vec sink: node records, sixteen
zero bytes, the data section, the metadata marker, then the metadata
serialized as a map. -/
def Database.writeTo (db : Database) : Except SerErr (List Nat) :=
  let buf := treeWriteTo db.nodes db.metadata.record_size
    ++ List.replicate 16 0 ++ db.data ++ metadataStartMarker
  match serValue (metadataValue db.metadata) buf with
  | (buf2, none) => .ok buf2
  | (_, some e) => .error e

/-- Trailing-zero count of a machine integer, computed by halving with a
fuel bound (`u8::trailing_zeros` is `ntzF 8`, and for a positive Nat `n`
any fuel of at least `n` gives the exact count). -/
def ntzF : Nat → Nat → Nat
  | 0, _ => 0
  | f+1, n => if n % 2 = 1 then 0 else ntzF f (n / 2) + 1

/-- Trailing zeros of a positive Nat (`ntz 0 = 0` by convention; all uses
guard against 0). -/
def ntz (n : Nat) : Nat := ntzF n n

/-- paths.rs `trailing_zeros`, iterating the byte slice from the rear:
8 per zero byte, plus `u8::trailing_zeros` of the first nonzero byte. -/
def tzBytesRev : List Nat → Nat
  | [] => 0
  | b :: rest => if b = 0 then 8 + tzBytesRev rest else ntzF 8 b

/-- paths.rs `trailing_zeros` on a byte slice in its original order. -/
def trailingZerosBytes (s : List Nat) : Nat := tzBytesRev s.reverse

/-- Floor base-2 logarithm by halving with a fuel bound; `ilog2 n` with
`n` itself as fuel is exact for positive `n` (`usize::ilog2`). -/
def ilog2F : Nat → Nat → Nat
  | 0, _ => 0
  | f+1, n => if n < 2 then 0 else ilog2F f (n / 2) + 1

/-- `usize::ilog2` (the argument is positive at every call site). -/
def ilog2 (n : Nat) : Nat := ilog2F n n

/-- The increment loop of paths.rs `octets_with_mask`: try
`checked_add(1 << bit)` at byte `j`; on u8 overflow zero the byte and
carry 1 into byte `j - 1`, stopping when byte 0 wraps.  `none` models the
panic of `start[byte_to_change]` when the index is out of bounds. -/
def carryLoop : List Nat → Nat → Nat → Option (List Nat)
  | s, 0, add =>
      match s[0]? with
      | none => none
      | some b => if b + add ≤ 255 then some (s.set 0 (b + add)) else some (s.set 0 0)
  | s, j+1, add =>
      match s[j+1]? with
      | none => none
      | some b =>
          if b + add ≤ 255 then some (s.set (j+1) (b + add))
          else carryLoop (s.set (j+1) 0) j 1

/-- The body of paths.rs `octets_with_mask`, with fuel (first argument)
bounding the number of loop iterations; since `count` drops by at least 1
per iteration, fuel `count` makes the wrapper below exact.  `none` models
a panic: the underflowing `N - suffix / 8 - 1` when `suffix / 8 ≥ N`
(debug overflow check, or the subsequent wild index in release), or an
out-of-bounds byte index in the increment. -/
def octetsF (N : Nat) : Nat → List Nat → Nat → Option (List (List Nat × Nat))
  | 0, _, _ => some []
  | f+1, start, count =>
      if count = 0 then some []
      else
        if N < min (trailingZerosBytes start) (ilog2 count) / 8 + 1 then none
        else
          match carryLoop start
              (N - min (trailingZerosBytes start) (ilog2 count) / 8 - 1)
              (1 <<< (min (trailingZerosBytes start) (ilog2 count) % 8)) with
          | none => none
          | some start2 =>
              match octetsF N f start2
                  (count - 1 <<< min (trailingZerosBytes start) (ilog2 count)) with
              | none => none
              | some rest =>
                  some ((start,
                    N * 8 - min (trailingZerosBytes start) (ilog2 count)) :: rest)

/-- paths.rs `octets_with_mask` for `N`-byte addresses. -/
def octetsWithMask (N : Nat) (start : List Nat) (count : Nat) :
    Option (List (List Nat × Nat)) :=
  octetsF N count start count

example : octetsWithMask 4 [196, 11, 105, 0] 1024 =
    some [([196, 11, 105, 0], 24), ([196, 11, 106, 0], 23), ([196, 11, 108, 0], 24)] := by
  decide

example : octetsWithMask 4 [1, 0, 0, 240] 32 =
    some [([1, 0, 0, 240], 28), ([1, 0, 1, 0], 28)] := by decide

/-- Trailing-zero count capped at the address width: what
`trailing_zeros` computes on the byte level, expressed on the value. -/
def tzW (W n : Nat) : Nat := if n = 0 then W else ntz n

/-- The greedy CIDR decomposition stated on address values, following the
claim: each emitted block sits at the current start and has suffix length
`min(trailing_zeros(start), log2(count))`, i.e. mask `W - suffix`; then
start advances and count shrinks by the block size.  Fuel as above. -/
def greedyF (W : Nat) : Nat → Nat → Nat → List (Nat × Nat)
  | 0, _, _ => []
  | f+1, lo, count =>
      if count = 0 then []
      else
        (lo, min (tzW W lo) (ilog2 count)) ::
          greedyF W f (lo + 2 ^ min (tzW W lo) (ilog2 count))
            (count - 2 ^ min (tzW W lo) (ilog2 count))

/-- Greedy decomposition of `[lo, lo + count)` into dyadic blocks,
recorded as (address, suffix length). -/
def greedyBlocks (W lo count : Nat) : List (Nat × Nat) :=
  greedyF W count lo count

/-- A point lies in one of the listed dyadic blocks (address, suffix). -/
def coveredBy (bs : List (Nat × Nat)) (x : Nat) : Prop :=
  ∃ p ∈ bs, p.1 ≤ x ∧ x < p.1 + 2 ^ p.2

/-- A point lies in one of the listed CIDR blocks, each given as raw
octets plus a prefix length (mask), over `N`-byte addresses. -/
def coveredByCidr (N : Nat) (cs : List (List Nat × Nat)) (x : Nat) : Prop :=
  ∃ p ∈ cs, bytesToNat p.1 ≤ x ∧ x < bytesToNat p.1 + 2 ^ (8 * N - p.2)

/-- paths.rs `IpAddrWithMask` with the address as raw octets (4 for V4,
16 for V6). -/
structure IpAddrWithMask where
  octets : List Nat
  mask : Nat
deriving DecidableEq

/-- One `next()` of paths.rs `IpAddrWithMaskBitPath`: `none` models the
out-of-bounds octet index panic; otherwise the iterator yield (`none`
when exhausted) together with the updated bit position. -/
def bitPathNext (octets : List Nat) (mask bit : Nat) :
    Option (Option Bool × Nat) :=
  if mask ≤ bit then some (none, bit)
  else
    match octets[bit / 8]? with
    | none => none
    | some byte => some (some (byte &&& 1 <<< (7 - bit % 8) ≠ 0), bit + 1)

/-- The mask-parsing half of paths.rs `FromStr for IpAddrWithMask`: the
text after the slash goes through `u8::from_str`, which accepts any value
up to 255 and applies no prefix-length range check. -/
def parseMaskU8 (s : List Char) : Option Nat :=
  if s = [] ∨ ¬ s.all Char.isDigit then none
  else
    let v := s.foldl (fun acc c => acc * 10 + (c.toNat - 48)) 0
    if v ≤ 255 then some v else none

example : parseMaskU8 "40".toList = some 40 := by decide

/-! Helper lemmas about bytes and bitwise-or on disjoint ranges. -/

/-- Or-ing a multiple of 32 with a value below 32 is addition. -/
lemma lor_small_add : ∀ a, a < 8 → ∀ s, s < 32 → a * 32 ||| s = a * 32 + s := by
  decide

/-- `beBytes` always yields the requested number of bytes. -/
lemma beBytes_length (n : Nat) : ∀ v, (beBytes n v).length = n := by
  induction n with
  | zero => intro v; rfl
  | succ n ih => intro v; simp [beBytes, ih]

/-- Stripping zero bytes never lengthens a list. -/
lemma stripZeroBytes_length_le (l : List Nat) : (stripZeroBytes l).length ≤ l.length := by
  induction l with
  | nil => simp [stripZeroBytes]
  | cons b rest ih =>
      by_cases hb : b = 0 <;> simp [stripZeroBytes, hb] <;> omega

/-- `writeControl` on an in-range size with a short payload: one control
byte, the extended type byte exactly when the type code exceeds 7. -/
lemma writeControl_short (t s : Nat) (ht : t ≤ 15) (hs : s < 29) :
    writeControl t s = .ok (if t ≤ 7 then [t * 32 + s] else [s, t - 7]) := by
  by_cases h7 : t ≤ 7
  · have hfirst : t * 32 % 256 = t * 32 := Nat.mod_eq_of_lt (by omega)
    simp [writeControl, h7, hs, beBytes, hfirst, show ¬ s > 16843036 by omega,
      lor_small_add t (by omega) s (by omega)]
  · have h0 : (0 : Nat) ||| s = s := by
      have := lor_small_add 0 (by decide) s (by omega)
      simpa using this
    simp [writeControl, h7, hs, beBytes, h0, show ¬ s > 16843036 by omega]

/-- The first byte produced for a length class `c` (29, 30 or 31),
φ-branch form: used with the branch hypothesis already fixed. -/
lemma first_lor_le7 (t c : Nat) (h7 : t ≤ 7) (hc2 : c < 32) :
    t * 32 % 256 ||| c = t * 32 + c := by
  have hfirst : t * 32 % 256 = t * 32 := Nat.mod_eq_of_lt (by omega)
  rw [hfirst, lor_small_add t (by omega) c hc2]

/-- Zero or a small value is that value. -/
lemma zero_lor_small (c : Nat) (hc2 : c < 32) : (0 : Nat) ||| c = c := by
  have := lor_small_add 0 (by decide) c hc2
  simpa using this

/-- `writeControl`, one extension byte (sizes 29 to 284). -/
lemma writeControl_one (t s : Nat) (ht : t ≤ 15) (hs1 : 29 ≤ s) (hs : s < 285) :
    writeControl t s =
      .ok (((if t ≤ 7 then t * 32 else 0) + 29) ::
        (if t ≤ 7 then [] else [t - 7]) ++ [s - 29]) := by
  have hb : beBytes 8 (s - 29) = [0, 0, 0, 0, 0, 0, 0, s - 29] := by
    have h1 : (s - 29) / 256 = 0 := by omega
    have h2 : (s - 29) % 256 = s - 29 := Nat.mod_eq_of_lt (by omega)
    simp [beBytes, h1, h2]
  by_cases h7 : t ≤ 7 <;>
    simp [writeControl, h7, show ¬ s > 16843036 by omega, show ¬ s < 29 by omega,
      hs, hb, first_lor_le7 t 29 , zero_lor_small 29 (by omega)]

/-- `writeControl`, two extension bytes (sizes 285 to 65820). -/
lemma writeControl_two (t s : Nat) (ht : t ≤ 15) (hs1 : 285 ≤ s) (hs : s < 65821) :
    writeControl t s =
      .ok (((if t ≤ 7 then t * 32 else 0) + 30) ::
        (if t ≤ 7 then [] else [t - 7]) ++ [(s - 285) / 256, (s - 285) % 256]) := by
  have hb : beBytes 8 (s - 285) =
      [0, 0, 0, 0, 0, 0, (s - 285) / 256, (s - 285) % 256] := by
    have h1 : (s - 285) / 256 / 256 = 0 := by
      rw [Nat.div_div_eq_div_mul]; omega
    have h2 : (s - 285) / 256 % 256 = (s - 285) / 256 := Nat.mod_eq_of_lt (by omega)
    simp [beBytes, h1, h2]
  by_cases h7 : t ≤ 7 <;>
    simp [writeControl, h7, show ¬ s > 16843036 by omega, show ¬ s < 29 by omega,
      show ¬ s < 285 by omega, hs, hb, first_lor_le7 t 30, zero_lor_small 30 (by omega)]

/-- `writeControl`, three extension bytes (sizes 65821 to 16843036). -/
lemma writeControl_three (t s : Nat) (ht : t ≤ 15) (hs1 : 65821 ≤ s)
    (hs : s ≤ 16843036) :
    writeControl t s =
      .ok (((if t ≤ 7 then t * 32 else 0) + 31) ::
        (if t ≤ 7 then [] else [t - 7]) ++
          [(s - 65821) / 65536, (s - 65821) / 256 % 256, (s - 65821) % 256]) := by
  have hb : beBytes 8 (s - 65821) =
      [0, 0, 0, 0, 0, (s - 65821) / 65536, (s - 65821) / 256 % 256,
        (s - 65821) % 256] := by
    have h1 : (s - 65821) / 256 / 256 / 256 = 0 := by
      rw [Nat.div_div_eq_div_mul, Nat.div_div_eq_div_mul]; omega
    have h2 : (s - 65821) / 256 / 256 % 256 = (s - 65821) / 65536 := by
      rw [Nat.div_div_eq_div_mul]
      exact Nat.mod_eq_of_lt (by omega)
    simp [beBytes, h1, h2]
  by_cases h7 : t ≤ 7 <;>
    simp [writeControl, h7, show ¬ s > 16843036 by omega, show ¬ s < 29 by omega,
      show ¬ s < 285 by omega, show ¬ s < 65821 by omega, hb,
      first_lor_le7 t 31, zero_lor_small 31 (by omega)]

/-- Folding three big-endian bytes of `x` recovers `x` below `2^24`. -/
lemma bytesToNat_three_aux (x : Nat) :
    bytesToNat [x / 65536, x / 256 % 256, x % 256] =
      (x / 65536 * 256 + x / 256 % 256) * 256 + x % 256 := by
  simp only [bytesToNat, List.foldl, Nat.zero_mul, Nat.zero_add]

/-- The middle digit recombines with the top one. -/
lemma div_65536_combine (x : Nat) : x / 65536 * 256 + x / 256 % 256 = x / 256 := by
  rw [show (65536 : Nat) = 256 * 256 by norm_num, ← Nat.div_div_eq_div_mul]
  rw [Nat.mul_comm]
  exact Nat.div_add_mod (x / 256) 256

/-- Three extension bytes carry their big-endian value. -/
lemma bytesToNat_three (x : Nat) :
    bytesToNat [x / 65536, x / 256 % 256, x % 256] = x := by
  rw [bytesToNat_three_aux, div_65536_combine, Nat.mul_comm]
  exact Nat.div_add_mod x 256

/-- C1: the four length classes of `write_control`, with the low five bits
of the first byte, the number and the big-endian value of the extension
bytes in each class, and failure with `LengthOutOfRange` exactly above
16843036. -/
theorem writeControl_framing (t s : Nat) (ht2 : 2 ≤ t) (ht : t ≤ 15) :
    (s < 29 →
      ∃ b, writeControl t s = .ok ([b] ++ (if t ≤ 7 then [] else [t - 7]) ++ [])
        ∧ b % 32 = s) ∧
    (29 ≤ s → s < 285 →
      ∃ b, writeControl t s =
          .ok ([b] ++ (if t ≤ 7 then [] else [t - 7]) ++ [s - 29])
        ∧ b % 32 = 29 ∧ bytesToNat [s - 29] = s - 29) ∧
    (285 ≤ s → s < 65821 →
      ∃ b, writeControl t s =
          .ok ([b] ++ (if t ≤ 7 then [] else [t - 7]) ++
            [(s - 285) / 256, (s - 285) % 256])
        ∧ b % 32 = 30 ∧ bytesToNat [(s - 285) / 256, (s - 285) % 256] = s - 285) ∧
    (65821 ≤ s → s ≤ 16843036 →
      ∃ b, writeControl t s =
          .ok ([b] ++ (if t ≤ 7 then [] else [t - 7]) ++
            [(s - 65821) / 65536, (s - 65821) / 256 % 256, (s - 65821) % 256])
        ∧ b % 32 = 31 ∧
          bytesToNat [(s - 65821) / 65536, (s - 65821) / 256 % 256, (s - 65821) % 256]
            = s - 65821) ∧
    (writeControl t s = .error .lengthOutOfRange ↔ 16843036 < s) := by
  have hcase : ∀ c, 29 ≤ c → c < 32 → ((if t ≤ 7 then t * 32 else 0) + c) % 32 = c := by
    intro c h1 h2
    by_cases h7 : t ≤ 7 <;> simp [h7] <;> omega
  refine ⟨?_, ?_, ?_, ?_, ?_⟩
  · intro hs
    refine ⟨(if t ≤ 7 then t * 32 else 0) + s, ?_, ?_⟩
    · rw [writeControl_short t s ht hs]
      by_cases h7 : t ≤ 7 <;> simp [h7]
    · by_cases h7 : t ≤ 7 <;> simp [h7] <;> omega
  · intro hs1 hs
    exact ⟨(if t ≤ 7 then t * 32 else 0) + 29, by simpa using writeControl_one t s ht hs1 hs,
      hcase 29 (by omega) (by omega), by simp [bytesToNat]⟩
  · intro hs1 hs
    refine ⟨(if t ≤ 7 then t * 32 else 0) + 30, by simpa using writeControl_two t s ht hs1 hs,
      hcase 30 (by omega) (by omega), ?_⟩
    simp [bytesToNat]
    omega
  · intro hs1 hs
    exact ⟨(if t ≤ 7 then t * 32 else 0) + 31,
      by simpa using writeControl_three t s ht hs1 hs,
      hcase 31 (by omega) (by omega), bytesToNat_three (s - 65821)⟩
  · constructor
    · intro h
      by_contra hgt
      rcases Nat.lt_or_ge s 29 with hs | hs
      · rw [writeControl_short t s ht hs] at h; cases h
      rcases Nat.lt_or_ge s 285 with hs2 | hs2
      · rw [writeControl_one t s ht hs hs2] at h; cases h
      rcases Nat.lt_or_ge s 65821 with hs3 | hs3
      · rw [writeControl_two t s ht hs2 hs3] at h; cases h
      · rw [writeControl_three t s ht hs3 (by omega)] at h; cases h
    · intro h
      simp [writeControl, h]

/-- C1 witness at `t = 2` (String), `s = 80`. -/
theorem writeControl_framing_witness :
    ∃ b, writeControl 2 80 =
        .ok ([b] ++ (if (2 : Nat) ≤ 7 then [] else [2 - 7]) ++ [80 - 29])
      ∧ b % 32 = 29 ∧ bytesToNat [80 - 29] = 80 - 29 :=
  (writeControl_framing 2 80 (by decide) (by decide)).2.1 (by decide) (by decide)

/-- C2 counterexample: for Uint128 (type 10, extended byte 3) at size 29,
the code emits the extended type byte before the length-extension byte —
`[29, 3, 0]` — not after it as the claim orders the wire (`[29, 0, 3]`). -/
theorem writeControl_ext_before_length :
    writeControl 10 29 = .ok [29, 3, 0] ∧ writeControl 10 29 ≠ .ok [29, 0, 3] := by
  constructor
  · rfl
  · intro h
    cases h

/-- C2 amended: for every extended type (t ≥ 8) with length-extension
bytes present (29 ≤ s ≤ 16843036), the extended type byte `t − 7` is the
second byte on the wire, immediately after the first control byte and
before the (at least one) length-extension bytes. -/
theorem writeControl_ext_byte_position (t s : Nat) (ht8 : 8 ≤ t) (ht : t ≤ 15)
    (hs1 : 29 ≤ s) (hs : s ≤ 16843036) :
    ∃ b lb, writeControl t s = .ok (b :: (t - 7) :: lb) ∧ 1 ≤ lb.length := by
  have h7 : ¬ t ≤ 7 := by omega
  rcases Nat.lt_or_ge s 285 with h285 | h285
  · refine ⟨0 + 29, [s - 29], ?_, by simp⟩
    have := writeControl_one t s ht hs1 h285
    simpa [h7] using this
  rcases Nat.lt_or_ge s 65821 with h65821 | h65821
  · refine ⟨0 + 30, [(s - 285) / 256, (s - 285) % 256], ?_, by simp⟩
    have := writeControl_two t s ht h285 h65821
    simpa [h7] using this
  · refine ⟨0 + 31,
      [(s - 65821) / 65536, (s - 65821) / 256 % 256, (s - 65821) % 256], ?_, by simp⟩
    have := writeControl_three t s ht h65821 hs
    simpa [h7] using this

/-- C2 witness at `t = 10`, `s = 29`. -/
theorem writeControl_ext_byte_position_witness :
    ∃ b lb, writeControl 10 29 = .ok (b :: (10 - 7) :: lb) ∧ 1 ≤ lb.length := by
  have := writeControl_ext_byte_position 10 29 (by decide) (by decide) (by decide) (by decide)
  simpa using this

/-- C8: unsigned integers are written as their big-endian bytes with
leading zero bytes stripped, the control length being the payload length
(visible in the single control byte, whose low five bits carry it); value
0 has an empty payload and value 1 the single byte 1. -/
theorem serialize_unsigned_strips_zeros (buf : List Nat) (v : Nat) :
    (v < 2 ^ 16 →
      serValue (.u16 v) buf =
        (buf ++ (5 * 32 + (stripZeroBytes (beBytes 2 v)).length) ::
          stripZeroBytes (beBytes 2 v), none)) ∧
    (v < 2 ^ 32 →
      serValue (.u32 v) buf =
        (buf ++ (6 * 32 + (stripZeroBytes (beBytes 4 v)).length) ::
          stripZeroBytes (beBytes 4 v), none)) ∧
    (v < 2 ^ 64 →
      serValue (.u64 v) buf =
        (buf ++ (stripZeroBytes (beBytes 8 v)).length :: 2 ::
          stripZeroBytes (beBytes 8 v), none)) ∧
    (v < 2 ^ 128 →
      serValue (.u128 v) buf =
        (buf ++ (stripZeroBytes (beBytes 16 v)).length :: 3 ::
          stripZeroBytes (beBytes 16 v), none)) ∧
    serValue (.u64 0) buf = (buf ++ [0, 2], none) ∧
    serValue (.u64 1) buf = (buf ++ [1, 2, 1], none) := by
  have hlen : ∀ w v2, (stripZeroBytes (beBytes w v2)).length ≤ w := by
    intro w v2
    calc (stripZeroBytes (beBytes w v2)).length
        ≤ (beBytes w v2).length := stripZeroBytes_length_le _
      _ = w := beBytes_length w v2
  have hser : ∀ tid w v2, tid ≤ 15 → w < 29 →
      thenWrite (serControl buf tid (stripZeroBytes (beBytes w v2)).length)
          (stripZeroBytes (beBytes w v2)) =
        (buf ++ ((if tid ≤ 7 then tid * 32 else 0) +
            (stripZeroBytes (beBytes w v2)).length) ::
          (if tid ≤ 7 then [] else [tid - 7]) ++ stripZeroBytes (beBytes w v2), none) := by
    intro tid w v2 htid hw
    have hlt : (stripZeroBytes (beBytes w v2)).length < 29 :=
      Nat.lt_of_le_of_lt (hlen w v2) hw
    simp only [serControl, writeControl_short tid _ htid hlt]
    by_cases h7 : tid ≤ 7 <;> simp [h7, thenWrite]
  refine ⟨fun _ => ?_, fun _ => ?_, fun _ => ?_, fun _ => ?_, ?_, ?_⟩
  · have := hser 5 2 v (by decide) (by decide)
    simpa [serValue] using this
  · have := hser 6 4 v (by decide) (by decide)
    simpa [serValue] using this
  · have := hser 9 8 v (by decide) (by decide)
    simpa [serValue] using this
  · have := hser 10 16 v (by decide) (by decide)
    simpa [serValue] using this
  · have h1 : stripZeroBytes (beBytes 8 0) = [] := rfl
    have h2 : writeControl 9 0 = .ok [0, 2] := rfl
    simp [serValue, h1, h2, serControl, thenWrite]
  · have h1 : stripZeroBytes (beBytes 8 1) = [1] := rfl
    have h2 : writeControl 9 1 = .ok [1, 2] := rfl
    simp [serValue, h1, h2, serControl, thenWrite]

/-- C8 witness at `v = 1` as u16. -/
theorem serialize_unsigned_strips_zeros_witness :
    serValue (.u16 1) [] =
      ([] ++ (5 * 32 + (stripZeroBytes (beBytes 2 1)).length) ::
        stripZeroBytes (beBytes 2 1), none) :=
  (serialize_unsigned_strips_zeros [] 1).1 (by decide)

/-! The trie: split step and frame conditions of insert. -/

/-- Reading the slot just written. -/
lemma Node.get_setEdge_same (n : Node) (b : Bool) (v : Option Target) :
    (n.setEdge b v).get b = v := by
  cases b <;> simp [Node.get, Node.setEdge]

/-- Reading the other slot. -/
lemma Node.get_setEdge_other (n : Node) (b b2 : Bool) (v : Option Target)
    (h : b2 ≠ b) : (n.setEdge b v).get b2 = n.get b2 := by
  cases b <;> cases b2 <;> simp_all [Node.get, Node.setEdge]

/-- Reading the appended node after a set: the set keeps the length. -/
lemma set_concat_getElem_last (nodes : List Node) (index : Nat) (m x : Node) :
    ((nodes.set index m) ++ [x])[nodes.length]? = some x := by
  have h2 := List.getElem?_concat_length (nodes.set index m) x
  rwa [List.length_set] at h2

/-- Reading an untouched slot after a set plus append. -/
lemma set_concat_getElem_lt (nodes : List Node) (index : Nat) (m x : Node)
    (j : Nat) (hj : j < nodes.length) (hne : j ≠ index) :
    ((nodes.set index m) ++ [x])[j]? = nodes[j]? := by
  rw [List.getElem?_append_left (by simp [hj]), List.getElem?_set_ne (Ne.symm hne)]

/-- C3: whenever the walk of insert, still short of the final bit, finds
the pending edge holding `Data` or unset, it allocates a fresh node whose
both children are copies of that old edge value, redirects the edge to
the fresh node, and continues the walk from it; all other pre-existing
nodes are untouched at this step. -/
theorem insert_split_preserves (nodes : List Node) (index : Nat) (last : Bool)
    (bit : Bool) (rest : List Bool) (dat : Nat) (nd : Node)
    (hnd : nodes[index]? = some nd)
    (hsplit : nd.get last = none ∨ ∃ d, nd.get last = some (.data d)) :
    ∃ ns,
      insertWalk nodes index last (bit :: rest) dat =
        insertWalk ns nodes.length bit rest dat ∧
      ns.length = nodes.length + 1 ∧
      ns[nodes.length]? = some (Node.mk (nd.get last) (nd.get last)) ∧
      (ns[index]?).map (fun m => m.get last) = some (some (.node nodes.length)) ∧
      (∀ j, j < nodes.length → j ≠ index → ns[j]? = nodes[j]?) := by
  have hix : index < nodes.length := by
    rcases List.getElem?_eq_some_iff.mp hnd with ⟨h, _⟩
    exact h
  refine ⟨nodes.set index (nd.setEdge last (some (.node nodes.length)))
      ++ [Node.mk (nd.get last) (nd.get last)], ?_, ?_, ?_, ?_, ?_⟩
  · rcases hsplit with h | ⟨d, h⟩ <;> simp [insertWalk, hnd, h]
  · simp
  · exact set_concat_getElem_last nodes index _ _
  · rw [List.getElem?_append_left (by simp [hix]),
      List.getElem?_set_self (by simp [hix])]
    simp [Node.get_setEdge_same]
  · intro j hj hne
    rw [List.getElem?_append_left (by simp [hj]), List.getElem?_set_ne (Ne.symm hne)]

/-- C3 witness: a one-node trie whose pending edge holds data. -/
theorem insert_split_preserves_witness :
    ∃ ns,
      insertWalk [Node.mk (some (.data 5)) none] 0 false (true :: []) 7 =
        insertWalk ns 1 true [] 7 ∧
      ns.length = 1 + 1 ∧
      ns[1]? = some (Node.mk (some (.data 5)) (some (.data 5))) ∧
      (ns[0]?).map (fun m => m.get false) = some (some (.node 1)) ∧
      (∀ j, j < 1 → j ≠ 0 → ns[j]? = [Node.mk (some (.data 5)) none][j]?) := by
  have := insert_split_preserves [Node.mk (some (.data 5)) none] 0 false true [] 7
    (Node.mk (some (.data 5)) none) rfl (Or.inr ⟨5, rfl⟩)
  simpa [Node.get] using this

/-- One edge either keeps its old target, or was overwritten with the
inserted data or with a pointer to a node allocated by this insert. -/
def EdgeOk (oldLen dat : Nat) (oldE newE : Option Target) : Prop :=
  newE = oldE ∨ newE = some (.data dat) ∨ ∃ k, oldLen ≤ k ∧ newE = some (.node k)

/-- Frame condition of one insert: the vector only grows, and every
pre-existing node keeps at least one edge verbatim while each edge obeys
`EdgeOk`. -/
def FrameOk (old new : List Node) (dat : Nat) : Prop :=
  old.length ≤ new.length ∧
  ∀ i, i < old.length →
    ∃ ond nnd, old[i]? = some ond ∧ new[i]? = some nnd ∧
      (nnd.get false = ond.get false ∨ nnd.get true = ond.get true) ∧
      EdgeOk old.length dat (ond.get false) (nnd.get false) ∧
      EdgeOk old.length dat (ond.get true) (nnd.get true)

/-- Every node target stored at position at least `L` points at least to
`L` (the freshly allocated region is closed under node pointers). -/
def FreshClosed (L : Nat) (nodes : List Node) : Prop :=
  ∀ j, L ≤ j → ∀ nd, nodes[j]? = some nd → ∀ b k, nd.get b = some (.node k) → L ≤ k

/-- The split step keeps the fresh region closed: the redirected edge
points at the appended node, and the appended node holds no node
pointers (its children copy a `Data`-or-unset edge). -/
lemma split_freshClosed (nodes : List Node) (index : Nat) (last : Bool)
    (nd : Node) (t : Option Target) (L : Nat)
    (hFC : FreshClosed L nodes) (hnd : nodes[index]? = some nd)
    (ht : t = none ∨ ∃ d, t = some (.data d)) :
    FreshClosed L
      (nodes.set index (nd.setEdge last (some (.node nodes.length))) ++ [Node.mk t t]) := by
  intro j hLj md hmd b k hbk
  by_cases hjlen : j < nodes.length
  · by_cases hji : j = index
    · subst hji
      rw [List.getElem?_append_left (by simp [hjlen]),
        List.getElem?_set_self (by simp [hjlen])] at hmd
      cases hmd
      by_cases hb : b = last
      · subst hb
        rw [Node.get_setEdge_same] at hbk
        cases hbk
        omega
      · rw [Node.get_setEdge_other _ _ _ _ hb] at hbk
        exact hFC j hLj nd hnd b k hbk
    · rw [set_concat_getElem_lt nodes index _ _ j hjlen hji] at hmd
      exact hFC j hLj md hmd b k hbk
  · have hj2 : j = nodes.length := by
      rcases List.getElem?_eq_some_iff.mp hmd with ⟨hlt, _⟩
      simp at hlt
      omega
    subst hj2
    rw [set_concat_getElem_last] at hmd
    cases hmd
    rcases ht with h | ⟨d, h⟩ <;> subst h <;> cases b <;> simp [Node.get] at hbk

/-- Once the walk is inside the fresh region, nodes below `L` are never
modified again and the vector keeps growing. -/
lemma insertWalk_fresh :
    ∀ (path : List Bool) (nodes : List Node) (index : Nat) (last : Bool)
      (dat : Nat) (ns : List Node) (L : Nat),
      L ≤ index → FreshClosed L nodes →
      insertWalk nodes index last path dat = some ns →
      (∀ j, j < L → ns[j]? = nodes[j]?) ∧ nodes.length ≤ ns.length := by
  intro path
  induction path with
  | nil =>
      intro nodes index last dat ns L hL hFC h
      rcases hnd : nodes[index]? with _ | nd
      · simp [insertWalk, hnd] at h
      · simp only [insertWalk, hnd] at h
        have hix : index < nodes.length := (List.getElem?_eq_some_iff.mp hnd).1
        cases h
        exact ⟨fun j hj => List.getElem?_set_ne (by omega), by simp⟩
  | cons bit rest ih =>
      intro nodes index last dat ns L hL hFC h
      rcases hnd : nodes[index]? with _ | nd
      · simp [insertWalk, hnd] at h
      have hix : index < nodes.length := (List.getElem?_eq_some_iff.mp hnd).1
      rcases hedge : nd.get last with _ | tgt
      · -- unset edge: split into the fresh region
        simp only [insertWalk, hnd, hedge] at h
        have hrec := ih _ nodes.length bit dat ns L (by omega)
          (split_freshClosed nodes index last nd none L hFC hnd (Or.inl rfl)) h
        refine ⟨fun j hj => ?_, ?_⟩
        · rw [hrec.1 j hj, set_concat_getElem_lt nodes index _ _ j (by omega) (by omega)]
        · refine Nat.le_trans ?_ hrec.2
          simp
      rcases tgt with k | d
      · -- existing node pointer: stays in the fresh region
        simp only [insertWalk, hnd, hedge] at h
        exact ih nodes k bit dat ns L (hFC index hL nd hnd last k hedge) hFC h
      · -- data edge: split into the fresh region
        simp only [insertWalk, hnd, hedge] at h
        have hrec := ih _ nodes.length bit dat ns L (by omega)
          (split_freshClosed nodes index last nd (some (.data d)) L hFC hnd
            (Or.inr ⟨d, rfl⟩)) h
        refine ⟨fun j hj => ?_, ?_⟩
        · rw [hrec.1 j hj, set_concat_getElem_lt nodes index _ _ j (by omega) (by omega)]
        · refine Nat.le_trans ?_ hrec.2
          simp

/-- An edge kept verbatim. -/
lemma EdgeOk.refl (oldLen dat : Nat) (e : Option Target) : EdgeOk oldLen dat e e :=
  Or.inl rfl

/-- The frame condition for the walk itself. -/
lemma insertWalk_frame :
    ∀ (path : List Bool) (nodes : List Node) (index : Nat) (last : Bool)
      (dat : Nat) (ns : List Node),
      insertWalk nodes index last path dat = some ns → FrameOk nodes ns dat := by
  intro path
  induction path with
  | nil =>
      intro nodes index last dat ns h
      rcases hnd : nodes[index]? with _ | nd
      · simp [insertWalk, hnd] at h
      simp only [insertWalk, hnd] at h
      have hix : index < nodes.length := (List.getElem?_eq_some_iff.mp hnd).1
      cases h
      refine ⟨by simp, fun i hi => ?_⟩
      by_cases hii : i = index
      · subst hii
        refine ⟨nd, nd.setEdge last (some (.data dat)), hnd,
          List.getElem?_set_self (by omega), ?_, ?_, ?_⟩
        · cases hb : last
          · right; rw [Node.get_setEdge_other _ _ _ _ (by simp)]
          · left; rw [Node.get_setEdge_other _ _ _ _ (by simp)]
        · by_cases hb : false = last
          · rw [← hb, Node.get_setEdge_same]
            exact Or.inr (Or.inl rfl)
          · rw [Node.get_setEdge_other _ _ _ _ hb]
            exact EdgeOk.refl _ _ _
        · by_cases hb : true = last
          · rw [← hb, Node.get_setEdge_same]
            exact Or.inr (Or.inl rfl)
          · rw [Node.get_setEdge_other _ _ _ _ hb]
            exact EdgeOk.refl _ _ _
      · have hond : nodes[i]? = some nodes[i] := List.getElem?_eq_getElem hi
        refine ⟨nodes[i], nodes[i], hond, ?_, Or.inl rfl, EdgeOk.refl _ _ _,
          EdgeOk.refl _ _ _⟩
        rw [List.getElem?_set_ne (by omega)]
        exact hond
  | cons bit rest ih =>
      intro nodes index last dat ns h
      rcases hnd : nodes[index]? with _ | nd
      · simp [insertWalk, hnd] at h
      have hix : index < nodes.length := (List.getElem?_eq_some_iff.mp hnd).1
      rcases hedge : nd.get last with _ | tgt
      case' some => rcases tgt with k | d
      case some.node =>
        simp only [insertWalk, hnd, hedge] at h
        exact ih nodes k bit dat ns h
      all_goals
            simp only [insertWalk, hnd, hedge] at h
      -- the two split branches (unset and data edge) are symmetric
      case' none =>
        have hFC : FreshClosed nodes.length
            (nodes.set index (nd.setEdge last (some (.node nodes.length)))
              ++ [Node.mk none none]) :=
          split_freshClosed nodes index last nd none nodes.length
            (fun j hLj md hmd => absurd ((List.getElem?_eq_some_iff.mp hmd).1) (by omega))
            hnd (Or.inl rfl)
        have hfresh := insertWalk_fresh rest _ nodes.length bit dat ns nodes.length
          (by omega) hFC h
        refine ⟨Nat.le_trans (by simp) hfresh.2, fun i hi => ?_⟩
        have hstay : ns[i]? =
            (nodes.set index (nd.setEdge last (some (.node nodes.length)))
              ++ [Node.mk none none])[i]? := hfresh.1 i hi
        by_cases hii : i = index
        · subst hii
          rw [List.getElem?_append_left (by simp [hi]),
            List.getElem?_set_self (by simp [hi])] at hstay
          refine ⟨nd, nd.setEdge last (some (.node nodes.length)), hnd, hstay, ?_, ?_, ?_⟩
          · cases hb : last
            · right; rw [Node.get_setEdge_other _ _ _ _ (by simp)]
            · left; rw [Node.get_setEdge_other _ _ _ _ (by simp)]
          · by_cases hb : false = last
            · rw [← hb, Node.get_setEdge_same]
              exact Or.inr (Or.inr ⟨nodes.length, Nat.le_refl _, rfl⟩)
            · rw [Node.get_setEdge_other _ _ _ _ hb]
              exact EdgeOk.refl _ _ _
          · by_cases hb : true = last
            · rw [← hb, Node.get_setEdge_same]
              exact Or.inr (Or.inr ⟨nodes.length, Nat.le_refl _, rfl⟩)
            · rw [Node.get_setEdge_other _ _ _ _ hb]
              exact EdgeOk.refl _ _ _
        · rw [set_concat_getElem_lt nodes index _ _ i hi hii] at hstay
          have hond : nodes[i]? = some nodes[i] := List.getElem?_eq_getElem hi
          refine ⟨nodes[i], nodes[i], hond, by rw [hstay]; exact hond, Or.inl rfl,
            EdgeOk.refl _ _ _, EdgeOk.refl _ _ _⟩
      case' some.data =>
        have hFC : FreshClosed nodes.length
            (nodes.set index (nd.setEdge last (some (.node nodes.length)))
              ++ [Node.mk (some (.data d)) (some (.data d))]) :=
          split_freshClosed nodes index last nd (some (.data d)) nodes.length
            (fun j hLj md hmd => absurd ((List.getElem?_eq_some_iff.mp hmd).1) (by omega))
            hnd (Or.inr ⟨d, rfl⟩)
        have hfresh := insertWalk_fresh rest _ nodes.length bit dat ns nodes.length
          (by omega) hFC h
        refine ⟨Nat.le_trans (by simp) hfresh.2, fun i hi => ?_⟩
        have hstay : ns[i]? =
            (nodes.set index (nd.setEdge last (some (.node nodes.length)))
              ++ [Node.mk (some (.data d)) (some (.data d))])[i]? := hfresh.1 i hi
        by_cases hii : i = index
        · subst hii
          rw [List.getElem?_append_left (by simp [hi]),
            List.getElem?_set_self (by simp [hi])] at hstay
          refine ⟨nd, nd.setEdge last (some (.node nodes.length)), hnd, hstay, ?_, ?_, ?_⟩
          · cases hb : last
            · right; rw [Node.get_setEdge_other _ _ _ _ (by simp)]
            · left; rw [Node.get_setEdge_other _ _ _ _ (by simp)]
          · by_cases hb : false = last
            · rw [← hb, Node.get_setEdge_same]
              exact Or.inr (Or.inr ⟨nodes.length, Nat.le_refl _, rfl⟩)
            · rw [Node.get_setEdge_other _ _ _ _ hb]
              exact EdgeOk.refl _ _ _
          · by_cases hb : true = last
            · rw [← hb, Node.get_setEdge_same]
              exact Or.inr (Or.inr ⟨nodes.length, Nat.le_refl _, rfl⟩)
            · rw [Node.get_setEdge_other _ _ _ _ hb]
              exact EdgeOk.refl _ _ _
        · rw [set_concat_getElem_lt nodes index _ _ i hi hii] at hstay
          have hond : nodes[i]? = some nodes[i] := List.getElem?_eq_getElem hi
          refine ⟨nodes[i], nodes[i], hond, by rw [hstay]; exact hond, Or.inl rfl,
            EdgeOk.refl _ _ _, EdgeOk.refl _ _ _⟩

/-- C9: insert is frame-preserving off the walked path: a completed
insert only appends nodes (pre-existing indices all survive), and each
pre-existing node keeps at least one of its two edges verbatim, every
changed edge being overwritten either with the inserted data or with a
pointer to a node allocated by this insert. -/
theorem insert_frame (nodes : List Node) (path : List Bool) (dat : Nat)
    (ns : List Node) (h : treeInsert nodes path dat = some ns) :
    FrameOk nodes ns dat := by
  cases path with
  | nil =>
      simp only [treeInsert] at h
      cases h
      refine ⟨Nat.le_refl _, fun i hi => ?_⟩
      have hond : nodes[i]? = some nodes[i] := List.getElem?_eq_getElem hi
      exact ⟨nodes[i], nodes[i], hond, hond, Or.inl rfl, EdgeOk.refl _ _ _,
        EdgeOk.refl _ _ _⟩
  | cons first rest =>
      simp only [treeInsert] at h
      exact insertWalk_frame rest nodes 0 first dat ns h

/-- C9 witness: inserting the path [false, true] into the default tree. -/
theorem insert_frame_witness :
    FrameOk treeDefault
      [Node.mk (some (.node 1)) none, Node.mk none (some (.data 0))] 0 :=
  insert_frame treeDefault [false, true] 0
    [Node.mk (some (.node 1)) none, Node.mk none (some (.data 0))] (by decide)

/-! Record emission. -/

/-- Appending one byte to a big-endian fold. -/
lemma bytesToNat_concat (l : List Nat) (b : Nat) :
    bytesToNat (l ++ [b]) = bytesToNat l * 256 + b := by
  simp [bytesToNat, List.foldl_append]

/-- The fold recovers the value of `beBytes` modulo the width. -/
lemma bytesToNat_beBytes : ∀ n v, bytesToNat (beBytes n v) = v % 256 ^ n := by
  intro n
  induction n with
  | zero => intro v; simp [beBytes, bytesToNat, Nat.mod_one]
  | succ n ih =>
      intro v
      rw [beBytes, bytesToNat_concat, ih]
      rw [show (256 : Nat) ^ (n + 1) = 256 * 256 ^ n by ring, Nat.mod_mul]
      ring

/-- The fold recovers the exact value when it fits. -/
lemma bytesToNat_beBytes_of_lt (n v : Nat) (h : v < 256 ^ n) :
    bytesToNat (beBytes n v) = v := by
  rw [bytesToNat_beBytes, Nat.mod_eq_of_lt h]

/-- What the claim says each child edge encodes to: the sentinel
`node_count` when unset, the node index, or `node_count + 16 + index`
for data. -/
def specEdgePtr (nodeCount : Nat) (e : Option Target) : Nat :=
  match e with
  | none => nodeCount
  | some (.node i) => i
  | some (.data d) => nodeCount + 16 + d

/-- The resolved pointer of `Node::write_to` is the claimed encoding. -/
lemma resolved_ptr_eq_spec (e : Option Target) (nc : Nat) :
    (Option.map (Target.toPtr · nc) e).getD nc = specEdgePtr nc e := by
  rcases e with _ | t
  · rfl
  · rcases t with i | d <;> simp [Target.toPtr, specEdgePtr]

/-- Four big-endian bytes are the three shifted bytes plus the low one. -/
lemma beBytes4_shifts (p : Nat) :
    beBytes 4 p = [p >>> 24 % 256, p >>> 16 % 256, p >>> 8 % 256, p % 256] := by
  simp [beBytes, Nat.shiftRight_eq_div_pow, Nat.div_div_eq_div_mul]

/-- A 32-bit record is the four big-endian bytes of each pointer. -/
lemma writeRecord_large (n : Node) (nc : Nat) :
    n.writeRecord .large nc =
      beBytes 4 (specEdgePtr nc (n.get false)) ++ beBytes 4 (specEdgePtr nc (n.get true)) := by
  simp [Node.writeRecord, beBytes4_shifts, resolved_ptr_eq_spec]

/-- Flattening balanced chunks commutes with dropping whole chunks. -/
lemma flatten_drop_balanced (k : Nat) :
    ∀ (i : Nat) (L : List (List Nat)), (∀ c ∈ L, c.length = k) →
      L.flatten.drop (k * i) = (L.drop i).flatten := by
  intro i
  induction i with
  | zero => intro L _; simp
  | succ i ih =>
      intro L hL
      cases L with
      | nil => simp
      | cons c rest =>
          have hc : c.length = k := hL c (by simp)
          have : k * (i + 1) = c.length + k * i := by rw [hc]; ring
          rw [List.flatten_cons, this, List.drop_append, ih rest
            (fun c2 hc2 => hL c2 (by simp [hc2]))]
          simp

/-- C4: `write_to` emits one record per node in allocation order; at the
32-bit record size the slice of the output at record `i` is the pair of
big-endian pointers of node `i`, and each pointer is the claimed integer:
`node_count` for an unset edge, the node index for a `Node` edge, and
`node_count + 16 + data index` for a `Data` edge (provided the pointers
fit the record, which the chosen record size guarantees below 2^32). -/
theorem treeWriteTo_records (nodes : List Node)
    (hfit : ∀ n ∈ nodes, ∀ b, specEdgePtr nodes.length (n.get b) < 2 ^ 32) :
    treeWriteTo nodes .large =
      (nodes.map (fun n => beBytes 4 (specEdgePtr nodes.length (n.get false))
        ++ beBytes 4 (specEdgePtr nodes.length (n.get true)))).flatten ∧
    (∀ i, (hi : i < nodes.length) →
      ((treeWriteTo nodes .large).drop (8 * i)).take 8 =
        beBytes 4 (specEdgePtr nodes.length (nodes[i].get false))
          ++ beBytes 4 (specEdgePtr nodes.length (nodes[i].get true))) ∧
    (∀ n ∈ nodes, ∀ b,
      bytesToNat (beBytes 4 (specEdgePtr nodes.length (n.get b)))
        = specEdgePtr nodes.length (n.get b)) := by
  have hmap : treeWriteTo nodes .large =
      (nodes.map (fun n => beBytes 4 (specEdgePtr nodes.length (n.get false))
        ++ beBytes 4 (specEdgePtr nodes.length (n.get true)))).flatten := by
    rw [treeWriteTo]
    congr 1
    exact List.map_congr_left (fun n _ => writeRecord_large n nodes.length)
  refine ⟨hmap, ?_, ?_⟩
  · intro i hi
    rw [hmap]
    set L := nodes.map (fun n => beBytes 4 (specEdgePtr nodes.length (n.get false))
      ++ beBytes 4 (specEdgePtr nodes.length (n.get true))) with hLdef
    have hlen : ∀ c ∈ L, c.length = 8 := by
      intro c hc
      rw [hLdef] at hc
      rcases List.mem_map.mp hc with ⟨n, _, rfl⟩
      simp [beBytes_length]
    rw [flatten_drop_balanced 8 i L hlen]
    have hdrop : L.drop i =
        (beBytes 4 (specEdgePtr nodes.length (nodes[i].get false))
          ++ beBytes 4 (specEdgePtr nodes.length (nodes[i].get true)))
          :: L.drop (i + 1) := by
      rw [hLdef]
      rw [List.drop_eq_getElem_cons (by simpa using hi)]
      simp
    rw [hdrop, List.flatten_cons]
    have h8 : (beBytes 4 (specEdgePtr nodes.length (nodes[i].get false))
        ++ beBytes 4 (specEdgePtr nodes.length (nodes[i].get true))).length = 8 := by
      simp [beBytes_length]
    rw [show (8 : Nat) = (beBytes 4 (specEdgePtr nodes.length (nodes[i].get false))
        ++ beBytes 4 (specEdgePtr nodes.length (nodes[i].get true))).length from h8.symm,
      List.take_left]
  · intro n hn b
    exact bytesToNat_beBytes_of_lt 4 _ (by simpa using hfit n hn b)

/-- C4 witness: the two-node tree left by the C9 witness insert. -/
theorem treeWriteTo_records_witness :
    treeWriteTo [Node.mk (some (.node 1)) none, Node.mk none (some (.data 0))]
        .large =
      ([Node.mk (some (.node 1)) none, Node.mk none (some (.data 0))].map
        (fun n => beBytes 4 (specEdgePtr
            [Node.mk (some (.node 1)) none, Node.mk none (some (.data 0))].length
            (n.get false))
          ++ beBytes 4 (specEdgePtr
            [Node.mk (some (.node 1)) none, Node.mk none (some (.data 0))].length
            (n.get true)))).flatten :=
  (treeWriteTo_records
    [Node.mk (some (.node 1)) none, Node.mk none (some (.data 0))] (by decide)).1

/-! Record-size selection and the Database invariant. -/

/-- What the claim asks of the chosen width: it admits the pointer and is
the least of 24, 28, 32 that does. -/
def IsSmallestRecordSize (rs : RecordSize) (maxPtr : Nat) : Prop :=
  maxPtr < 2 ^ rs.bits ∧ ∀ w ∈ [24, 28, 32], maxPtr < 2 ^ w → rs.bits ≤ w

/-- Below 2^32, `RecordSize::choose` picks the least admitting width. -/
lemma choose_smallest (m : Nat) (h : m < 2 ^ 32) :
    IsSmallestRecordSize (RecordSize.choose m) m := by
  rw [RecordSize.choose]
  have h24 : (1 : Nat) <<< 24 = 2 ^ 24 := by decide
  have h28 : (1 : Nat) <<< 28 = 2 ^ 28 := by decide
  rw [h24, h28]
  by_cases hm24 : m < 2 ^ 24
  · rw [if_pos hm24]
    exact ⟨hm24, by intro w hw _; fin_cases hw <;> simp [RecordSize.bits]⟩
  · rw [if_neg hm24]
    by_cases hm28 : m < 2 ^ 28
    · rw [if_pos hm28]
      refine ⟨hm28, ?_⟩
      intro w hw hmw
      fin_cases hw <;> simp [RecordSize.bits] <;> omega
    · rw [if_neg hm28]
      refine ⟨h, ?_⟩
      intro w hw hmw
      fin_cases hw <;> simp [RecordSize.bits] <;> omega

/-- The derived-field invariant of a Database. -/
def GoodDb (db : Database) : Prop :=
  db.metadata.node_count = db.nodes.length ∧
  db.metadata.record_size =
    RecordSize.choose (db.nodes.length + db.data.length + 16)

/-- `update_size` establishes the invariant whenever it returns. -/
lemma updateSize_good (db db2 : Database) (h : db.updateSize = some db2) :
    GoodDb db2 := by
  rw [Database.updateSize] at h
  split at h
  · cases h
    exact ⟨rfl, rfl⟩
  · cases h

/-- A fold that has already died stays dead. -/
lemma buildOps_none (ops : List DbOp) :
    ops.foldl (fun acc op => acc.bind (fun db => op.apply db)) none = none := by
  induction ops with
  | nil => rfl
  | cons op rest ih => simpa using ih

/-- Each insert op re-establishes the invariant; a metadata assignment
preserves it (it does not touch node_count, record_size, trie or data). -/
lemma apply_good (db db2 : Database) (op : DbOp) (h : op.apply db = some db2) :
    (op.isInsert → GoodDb db2) ∧ (GoodDb db → GoodDb db2) := by
  cases op with
  | insertVal v =>
      simp only [DbOp.apply, Database.insertValue] at h
      rcases hs : datastoreInsert db.data v with ⟨store2, res⟩
      rw [hs] at h
      rcases hu : Database.updateSize { db with data := store2 } with _ | db3
      · rw [hu] at h; cases h
      · rw [hu] at h
        cases h
        have := updateSize_good _ _ hu
        exact ⟨fun _ => this, fun _ => this⟩
  | insertNd path dat =>
      simp only [DbOp.apply, Database.insertNode] at h
      rcases ht : treeInsert db.nodes path dat with _ | ns
      · rw [ht] at h; cases h
      · rw [ht] at h
        have := updateSize_good _ _ h
        exact ⟨fun _ => this, fun _ => this⟩
  | setMeta ip dbType langs major minor epoch descr =>
      simp only [DbOp.apply] at h
      cases h
      exact ⟨fun hI => absurd hI (by simp [DbOp.isInsert]), fun hG => hG⟩

/-- Invariant propagation along a call sequence. -/
lemma foldl_good :
    ∀ (ops : List DbOp) (acc : Option Database) (db : Database),
      ops.foldl (fun acc op => acc.bind (fun db => op.apply db)) acc = some db →
      ((∃ op ∈ ops, op.isInsert) ∨ (∃ db0, acc = some db0 ∧ GoodDb db0)) →
      GoodDb db := by
  intro ops
  induction ops with
  | nil =>
      intro acc db h hcase
      rcases hcase with ⟨op, hmem, _⟩ | ⟨db0, hacc, hgood⟩
      · cases hmem
      · simp only [List.foldl] at h
        rw [hacc] at h
        cases h
        exact hgood
  | cons op rest ih =>
      intro acc db h hcase
      simp only [List.foldl] at h
      rcases hacc : acc.bind (fun db => op.apply db) with _ | db1
      · rw [hacc] at h
        rw [buildOps_none rest] at h
        cases h
      rw [hacc] at h
      rcases hacc0 : acc with _ | db0
      · rw [hacc0] at hacc; cases hacc
      rw [hacc0] at hacc
      simp only [Option.some_bind] at hacc
      have happ := apply_good db0 db1 op hacc
      rcases hcase with ⟨op2, hmem, hins⟩ | ⟨db0b, heq, hgood⟩
      · rcases List.mem_cons.mp hmem with rfl | hmem2
        · exact ih _ db h (Or.inr ⟨db1, rfl, happ.1 hins⟩)
        · exact ih _ db h (Or.inl ⟨op2, hmem2, hins⟩)
      · rw [hacc0] at heq
        cases heq
        exact ih _ db h (Or.inr ⟨db1, rfl, happ.2 hgood⟩)

/-- C5 counterexample: the empty call sequence reaches `Database::default`
itself, where the metadata says node_count = 0 although the trie already
holds its root node (node count 1); so the claimed invariant fails for
the empty sequence of inserts. -/
theorem database_default_node_count_mismatch :
    buildOps [] = some Database.default ∧
    Database.default.metadata.node_count = 0 ∧
    Database.default.nodes.length = 1 := by
  exact ⟨rfl, rfl, rfl⟩

/-- C5 amended: after every call sequence containing at least one
`insert_value` or `insert_node`, the metadata node_count equals the trie
node count and record_size is exactly `RecordSize::choose` of
`node_count + data_size + 16`; whenever that pointer bound is below 2^32
this is the smallest width of 24, 28, 32 admitting it (for larger
databases the code settles on 32 although no listed width admits the
pointer). -/
theorem database_size_invariant (ops : List DbOp) (db : Database)
    (h : buildOps ops = some db) (hins : ∃ op ∈ ops, op.isInsert) :
    db.metadata.node_count = db.nodes.length ∧
    db.metadata.record_size =
      RecordSize.choose (db.nodes.length + db.data.length + 16) ∧
    (db.nodes.length + db.data.length + 16 < 2 ^ 32 →
      IsSmallestRecordSize db.metadata.record_size
        (db.nodes.length + db.data.length + 16)) := by
  have hgood : GoodDb db := foldl_good ops _ db h (Or.inl hins)
  refine ⟨hgood.1, hgood.2, fun hlt => ?_⟩
  rw [hgood.2]
  exact choose_smallest _ hlt

/-- The Database reached by insert_node([false], 0) from default. -/
def dbAfterOneInsert : Database :=
  { nodes := [Node.mk (some (.data 0)) none]
    data := []
    metadata :=
      { node_count := 1
        record_size := .small
        ip_version := .v4
        database_type := []
        languages := []
        binary_format_major_version := 0
        binary_format_minor_version := 0
        build_epoch := 0
        description := [] } }

/-- C5 witness: one insert_node call. -/
theorem database_size_invariant_witness :
    dbAfterOneInsert.metadata.node_count = dbAfterOneInsert.nodes.length ∧
    dbAfterOneInsert.metadata.record_size =
      RecordSize.choose
        (dbAfterOneInsert.nodes.length + dbAfterOneInsert.data.length + 16) ∧
    (dbAfterOneInsert.nodes.length + dbAfterOneInsert.data.length + 16 < 2 ^ 32 →
      IsSmallestRecordSize dbAfterOneInsert.metadata.record_size
        (dbAfterOneInsert.nodes.length + dbAfterOneInsert.data.length + 16)) :=
  database_size_invariant [.insertNd [false] 0] dbAfterOneInsert (by decide)
    ⟨.insertNd [false] 0, by simp, trivial⟩

/-! Determinism of write_to, and the bit-path iterator. -/

deriving instance DecidableEq for Except

/-- A metadata record whose description HashMap yields (a, x) then (b, y). -/
def metaDescAB : Metadata :=
  { Metadata.default with description := [([97], [120]), ([98], [121])] }

/-- The same HashMap contents yielded in the other order. -/
def metaDescBA : Metadata :=
  { Metadata.default with description := [([98], [121]), ([97], [120])] }

set_option maxRecDepth 40000 in
/-- C7 counterexample: two Databases built by identical call sequences
(the same two description entries inserted) can serialize their
description HashMap in either iteration order, and the two orders give
different output bytes, so the output is not determined by the call
sequence. -/
theorem writeTo_description_order_dependent :
    metaDescAB.description.Perm metaDescBA.description ∧
    Database.writeTo { Database.default with metadata := metaDescAB } ≠
      Database.writeTo { Database.default with metadata := metaDescBA } := by
  constructor
  · decide
  · decide

/-- C7 amended: the output bytes are a function of the Database state
including the description iteration order: two runs of the same call
sequence whose description map also enumerates identically give
byte-identical output. -/
theorem writeTo_deterministic (ops : List DbOp) (db1 db2 : Database)
    (h1 : buildOps ops = some db1) (h2 : buildOps ops = some db2) :
    Database.writeTo db1 = Database.writeTo db2 := by
  rw [h1] at h2
  cases h2
  rfl

/-- C7 witness at the empty call sequence. -/
theorem writeTo_deterministic_witness :
    Database.writeTo Database.default = Database.writeTo Database.default :=
  writeTo_deterministic [] Database.default Database.default rfl rfl

/-- C10: a V4 address with mask above 32 (or a V6 one with mask above
128) passes the mask parser (`u8::from_str` applies no range check, e.g.
the text 40 parses), and consuming its bit path succeeds for every bit
below the address width but panics with an out-of-bounds octet index as
soon as the bit position reaches the width, instead of stopping. -/
theorem bitPath_mask_overflow_panics (o4 o16 : List Nat) (mask4 mask16 : Nat)
    (h4 : o4.length = 4) (hm4 : 32 < mask4)
    (h16 : o16.length = 16) (hm16 : 128 < mask16) :
    parseMaskU8 "40".toList = some 40 ∧
    (∀ b, b < 32 → ∃ r, bitPathNext o4 mask4 b = some (some r, b + 1)) ∧
    bitPathNext o4 mask4 32 = none ∧
    (∀ b, b < 128 → ∃ r, bitPathNext o16 mask16 b = some (some r, b + 1)) ∧
    bitPathNext o16 mask16 128 = none := by
  refine ⟨by decide, ?_, ?_, ?_, ?_⟩
  · intro b hb
    have hidx : b / 8 < o4.length := by omega
    refine ⟨o4[b / 8] &&& 1 <<< (7 - b % 8) ≠ 0, ?_⟩
    rw [bitPathNext, if_neg (by omega), List.getElem?_eq_getElem hidx]
  · rw [bitPathNext, if_neg (by omega), List.getElem?_eq_none (by omega)]
  · intro b hb
    have hidx : b / 8 < o16.length := by omega
    refine ⟨o16[b / 8] &&& 1 <<< (7 - b % 8) ≠ 0, ?_⟩
    rw [bitPathNext, if_neg (by omega), List.getElem?_eq_getElem hidx]
  · rw [bitPathNext, if_neg (by omega), List.getElem?_eq_none (by omega)]

/-- C10 witness: 1.2.3.4 with mask 40, and an all-zero V6 with mask 200. -/
theorem bitPath_mask_overflow_panics_witness :
    parseMaskU8 "40".toList = some 40 ∧
    (∀ b, b < 32 → ∃ r, bitPathNext [1, 2, 3, 4] 40 b = some (some r, b + 1)) ∧
    bitPathNext [1, 2, 3, 4] 40 32 = none ∧
    (∀ b, b < 128 →
      ∃ r, bitPathNext (List.replicate 16 0) 200 b = some (some r, b + 1)) ∧
    bitPathNext (List.replicate 16 0) 200 128 = none :=
  bitPath_mask_overflow_panics [1, 2, 3, 4] (List.replicate 16 0) 40 200
    (by decide) (by decide) (by decide) (by decide)

/-! Prefix enumeration: trailing zeros, floor log2, the greedy
decomposition on address values, and its correspondence with the
byte-level algorithm. -/

/-- At fuel at least the bit-width, `ntzF` computes the exact 2-adic
valuation: it divides, and the quotient is odd. -/
lemma ntzF_spec : ∀ (f n : Nat), n ≠ 0 → n < 2 ^ f →
    2 ^ ntzF f n ∣ n ∧ (n / 2 ^ ntzF f n) % 2 = 1 := by
  intro f
  induction f with
  | zero =>
      intro n h0 hf
      simp at hf
      omega
  | succ f ih =>
      intro n h0 hf
      rw [ntzF]
      by_cases hodd : n % 2 = 1
      · simp [hodd]
      · have h2 : n % 2 = 0 := by omega
        have hhalf : n / 2 ≠ 0 := by omega
        have hhalf2 : n / 2 < 2 ^ f := by
          rw [Nat.pow_succ] at hf
          omega
        rcases ih (n / 2) hhalf hhalf2 with ⟨hdvd, hquot⟩
        rw [if_neg hodd]
        refine ⟨?_, ?_⟩
        · rcases hdvd with ⟨m, hm⟩
          refine ⟨m, ?_⟩
          rw [Nat.pow_succ]
          calc n = 2 * (n / 2) := by omega
            _ = 2 * (2 ^ ntzF f (n / 2) * m) := by conv_lhs => rw [hm]
            _ = 2 ^ ntzF f (n / 2) * 2 * m := by ring
        · rw [show (2 : Nat) ^ (ntzF f (n / 2) + 1) = 2 ^ ntzF f (n / 2) * 2 by ring]
          rw [Nat.mul_comm, ← Nat.div_div_eq_div_mul]
          exact hquot

/-- The valuation of a positive number. -/
lemma ntz_spec (n : Nat) (h : n ≠ 0) :
    2 ^ ntz n ∣ n ∧ (n / 2 ^ ntz n) % 2 = 1 :=
  ntzF_spec n n h (Nat.lt_two_pow n)

/-- Dividing off fewer twos than divide `n` leaves an even number. -/
lemma div_pow_even (n j k : Nat) (hjk : j < k) (hdvd : 2 ^ k ∣ n) :
    (n / 2 ^ j) % 2 = 0 := by
  rcases hdvd with ⟨m, hm⟩
  subst hm
  have hsplit : (2 : Nat) ^ k = 2 ^ j * 2 ^ (k - j) := by
    rw [← Nat.pow_add]
    congr 1
    omega
  rw [hsplit, Nat.mul_assoc,
    Nat.mul_div_cancel_left _ (Nat.pos_pow_of_pos j (by omega))]
  have h2 : (2 : Nat) ^ (k - j) = 2 * 2 ^ (k - j - 1) := by
    conv_lhs => rw [show k - j = (k - j - 1) + 1 by omega]
    rw [Nat.pow_succ]
    ring
  rw [h2, Nat.mul_assoc, Nat.mul_mod_right]

/-- The valuation is characterised by divide-with-odd-quotient. -/
lemma ntz_eq_of (n k : Nat) (h : n ≠ 0) (hdvd : 2 ^ k ∣ n)
    (hodd : (n / 2 ^ k) % 2 = 1) : ntz n = k := by
  rcases ntz_spec n h with ⟨hd2, ho2⟩
  rcases Nat.lt_trichotomy (ntz n) k with hlt | heq | hgt
  · have := div_pow_even n (ntz n) k hlt hdvd
    omega
  · exact heq
  · have := div_pow_even n k (ntz n) hgt hd2
    omega

/-- Any power of two dividing `n` is at most `2 ^ ntz n`. -/
lemma le_ntz_of_dvd (n k : Nat) (h : n ≠ 0) (hdvd : 2 ^ k ∣ n) : k ≤ ntz n := by
  by_contra hlt
  have := div_pow_even n (ntz n) k (by omega) hdvd
  rcases ntz_spec n h with ⟨_, ho⟩
  omega

/-- Adding `2^j` to a multiple of `2^(j+1)` gives valuation exactly `j`. -/
lemma ntz_add_pow (lo j : Nat) (hdvd : 2 ^ (j + 1) ∣ lo) :
    ntz (lo + 2 ^ j) = j := by
  have hpos : (0 : Nat) < 2 ^ j := Nat.pos_pow_of_pos j (by omega)
  refine ntz_eq_of _ _ (by omega) ?_ ?_
  · exact Nat.dvd_add
      (Nat.dvd_trans (Nat.pow_dvd_pow 2 (by omega)) hdvd) (Nat.dvd_refl _)
  · rw [Nat.add_div_right _ hpos]
    have := div_pow_even lo j (j + 1) (by omega) hdvd
    omega

/-- Shifting left by a byte adds 8 to the valuation. -/
lemma ntz_mul_256 (V : Nat) (h : V ≠ 0) : ntz (256 * V) = 8 + ntz V := by
  refine ntz_eq_of _ _ (by positivity) ?_ ?_
  · rw [show (2 : Nat) ^ (8 + ntz V) = 256 * 2 ^ ntz V by rw [Nat.pow_add]]
    exact Nat.mul_dvd_mul_left 256 (ntz_spec V h).1
  · rw [show (2 : Nat) ^ (8 + ntz V) = 256 * 2 ^ ntz V by rw [Nat.pow_add]]
    rw [Nat.mul_comm 256 V, Nat.mul_comm 256 (2 ^ ntz V),
      Nat.mul_div_mul_right _ _ (by omega)]
    exact (ntz_spec V h).2

/-- A low byte dominates the valuation of `256 * V + b`. -/
lemma ntz_mul_256_add (V b : Nat) (hb0 : b ≠ 0) (hb : b < 256) :
    ntz (256 * V + b) = ntzF 8 b := by
  set k := ntzF 8 b with hk
  rcases ntzF_spec 8 b hb0 (by omega) with ⟨hd, ho⟩
  have hkle : k ≤ 7 := by
    have h1 : 2 ^ k ≤ b := Nat.le_of_dvd (by omega) hd
    by_contra hgt
    have h8 : (256 : Nat) ≤ 2 ^ k := by
      calc (256 : Nat) = 2 ^ 8 := by norm_num
        _ ≤ 2 ^ k := Nat.pow_le_pow_right (by omega) (by omega)
    omega
  refine ntz_eq_of _ _ (by omega) ?_ ?_
  · refine Nat.dvd_add (Dvd.dvd.mul_right ?_ V) hd
    rw [show (256 : Nat) = 2 ^ 8 by norm_num]
    exact Nat.pow_dvd_pow 2 (by omega)
  · have hsplit : 256 * V = 2 ^ k * (2 ^ (8 - k) * V) := by
      rw [← Nat.mul_assoc, ← Nat.pow_add, show k + (8 - k) = 8 by omega]
    rw [hsplit, Nat.mul_add_div (Nat.pos_pow_of_pos k (by omega))]
    have h2 : (2 : Nat) ^ (8 - k) = 2 * 2 ^ (7 - k) := by
      rw [show 8 - k = (7 - k) + 1 by omega]
      ring
    rw [h2]
    have hfold : 2 * 2 ^ (7 - k) * V = 2 * (2 ^ (7 - k) * V) := by ring
    rw [hfold]
    generalize hgen : b / 2 ^ k = q at ho ⊢
    omega

/-- At fuel at least the bit-width, `ilog2F` brackets its argument. -/
lemma ilog2F_spec : ∀ (f n : Nat), n ≠ 0 → n < 2 ^ f →
    2 ^ ilog2F f n ≤ n ∧ n < 2 ^ (ilog2F f n + 1) := by
  intro f
  induction f with
  | zero =>
      intro n h0 hf
      simp at hf
      omega
  | succ f ih =>
      intro n h0 hf
      rw [ilog2F]
      by_cases hlt : n < 2
      · simp [hlt]
        omega
      · rw [if_neg hlt]
        have hhalf : n / 2 ≠ 0 := by omega
        have hhalf2 : n / 2 < 2 ^ f := by
          rw [Nat.pow_succ] at hf
          omega
        rcases ih (n / 2) hhalf hhalf2 with ⟨hlo, hhi⟩
        have e1 : (2 : Nat) ^ (ilog2F f (n / 2) + 1) = 2 * 2 ^ ilog2F f (n / 2) := by
          ring
        have e2 : (2 : Nat) ^ (ilog2F f (n / 2) + 1 + 1)
            = 4 * 2 ^ ilog2F f (n / 2) := by
          ring
        rw [e1] at hhi ⊢
        rw [e2]
        omega

/-- `ilog2` brackets a positive argument. -/
lemma ilog2_spec (n : Nat) (h : n ≠ 0) :
    2 ^ ilog2 n ≤ n ∧ n < 2 ^ (ilog2 n + 1) :=
  ilog2F_spec n n h (Nat.lt_two_pow n)

/-- `ilog2` is the greatest exponent whose power is below `n`. -/
lemma le_ilog2 (k n : Nat) (hn : n ≠ 0) (h : 2 ^ k ≤ n) : k ≤ ilog2 n := by
  by_contra hlt
  have h1 : ilog2 n + 1 ≤ k := by omega
  have h2 : (2 : Nat) ^ (ilog2 n + 1) ≤ 2 ^ k := Nat.pow_le_pow_right (by omega) h1
  have := (ilog2_spec n hn).2
  omega

/-- `ilog2` respects strict power bounds. -/
lemma ilog2_lt_of_lt_pow (n W : Nat) (hn : n ≠ 0) (h : n < 2 ^ W) :
    ilog2 n < W := by
  by_contra hge
  have h2 : (2 : Nat) ^ W ≤ 2 ^ ilog2 n := Nat.pow_le_pow_right (by omega) (by omega)
  have := (ilog2_spec n hn).1
  omega

/-- Exhausted count yields no blocks at any fuel. -/
lemma greedyF_zero (W : Nat) : ∀ f lo, greedyF W f lo 0 = [] := by
  intro f lo
  cases f <;> simp [greedyF]

/-- The fuel does not matter as long as it covers the count. -/
lemma greedyF_fuel (W : Nat) :
    ∀ (f1 f2 lo count : Nat), count ≤ f1 → count ≤ f2 →
      greedyF W f1 lo count = greedyF W f2 lo count := by
  intro f1
  induction f1 with
  | zero =>
      intro f2 lo count h1 h2
      have : count = 0 := by omega
      subst this
      rw [greedyF_zero, greedyF_zero]
  | succ f1 ih =>
      intro f2 lo count h1 h2
      by_cases hc : count = 0
      · subst hc
        rw [greedyF_zero, greedyF_zero]
      · cases f2 with
        | zero => omega
        | succ f2 =>
            rw [greedyF, greedyF, if_neg hc, if_neg hc]
            have hp : (1 : Nat) ≤ 2 ^ min (tzW W lo) (ilog2 count) :=
              Nat.one_le_two_pow
            rw [ih f2 _ _ (by omega) (by omega)]

/-- One unfolding of the greedy decomposition. -/
lemma greedyBlocks_unfold (W lo count : Nat) (h : count ≠ 0) :
    greedyBlocks W lo count =
      (lo, min (tzW W lo) (ilog2 count)) ::
        greedyBlocks W (lo + 2 ^ min (tzW W lo) (ilog2 count))
          (count - 2 ^ min (tzW W lo) (ilog2 count)) := by
  rw [greedyBlocks, greedyBlocks]
  cases hc : count with
  | zero => omega
  | succ c =>
      rw [greedyF, if_neg (by omega)]
      have hp : (1 : Nat) ≤ 2 ^ min (tzW W lo) (ilog2 (c + 1)) := Nat.one_le_two_pow
      congr 1
      exact greedyF_fuel W c _ _ _ (by omega) (by omega)

/-- The block size never exceeds the remaining count. -/
lemma greedy_step_le (W lo count : Nat) (h : count ≠ 0) :
    2 ^ min (tzW W lo) (ilog2 count) ≤ count := by
  calc 2 ^ min (tzW W lo) (ilog2 count)
      ≤ 2 ^ ilog2 count := Nat.pow_le_pow_right (by omega) (Nat.min_le_right _ _)
    _ ≤ count := (ilog2_spec count h).1

/-- C6 kernel, coverage: the greedy blocks cover exactly the interval. -/
lemma greedy_cover (W : Nat) :
    ∀ (count lo x : Nat),
      coveredBy (greedyBlocks W lo count) x ↔ (lo ≤ x ∧ x < lo + count) := by
  intro count
  induction count using Nat.strong_induction_on with
  | _ count ih =>
      intro lo x
      by_cases hc : count = 0
      · subst hc
        simp [greedyBlocks, greedyF_zero, coveredBy] <;> omega
      · rw [greedyBlocks_unfold W lo count hc]
        set s := min (tzW W lo) (ilog2 count) with hs
        have hle : 2 ^ s ≤ count := greedy_step_le W lo count hc
        have hpos : (1 : Nat) ≤ 2 ^ s := Nat.one_le_two_pow
        have hrec := ih (count - 2 ^ s) (by omega) (lo + 2 ^ s) x
        simp only [coveredBy, List.mem_cons] at hrec ⊢
        constructor
        · rintro ⟨p, hp | hp, hple, hplt⟩
          · subst hp
            simp at hple hplt
            omega
          · have := hrec.mp ⟨p, hp, hple, hplt⟩
            omega
        · rintro ⟨hlo, hhi⟩
          by_cases hx : x < lo + 2 ^ s
          · exact ⟨(lo, s), Or.inl rfl, by simpa using hlo, by simpa using hx⟩
          · rcases hrec.mpr ⟨by omega, by omega⟩ with ⟨p, hp, h1, h2⟩
            exact ⟨p, Or.inr hp, h1, h2⟩

/-- Every emitted block sits inside the interval. -/
lemma greedy_block_range (W count lo : Nat) (p : Nat × Nat)
    (hp : p ∈ greedyBlocks W lo count) : lo ≤ p.1 ∧ p.1 < lo + count := by
  have : coveredBy (greedyBlocks W lo count) p.1 :=
    ⟨p, hp, Nat.le_refl _, by
      have h1 : (1 : Nat) ≤ 2 ^ p.2 := Nat.one_le_two_pow
      omega⟩
  exact (greedy_cover W count lo p.1).mp this

/-- The greedy blocks are valid dyadic blocks below the width. -/
lemma greedy_valid (W : Nat) :
    ∀ (count lo : Nat), count < 2 ^ W →
      ∀ p ∈ greedyBlocks W lo count, 2 ^ p.2 ∣ p.1 ∧ p.2 < W := by
  intro count
  induction count using Nat.strong_induction_on with
  | _ count ih =>
      intro lo hcnt p hp
      by_cases hc : count = 0
      · subst hc
        rw [greedyBlocks, greedyF_zero] at hp
        cases hp
      rw [greedyBlocks_unfold W lo count hc] at hp
      set s := min (tzW W lo) (ilog2 count) with hs
      rcases List.mem_cons.mp hp with rfl | hp2
      · constructor
        · by_cases hlo : lo = 0
          · simp [hlo]
          · have h1 : s ≤ ntz lo := by
              have : tzW W lo = ntz lo := by simp [tzW, hlo]
              omega
            exact Nat.dvd_trans (Nat.pow_dvd_pow 2 h1) (ntz_spec lo hlo).1
        · have : s ≤ ilog2 count := Nat.min_le_right _ _
          have := ilog2_lt_of_lt_pow count W hc hcnt
          omega
      · have hle : 2 ^ s ≤ count := greedy_step_le W lo count hc
        have hpos : (1 : Nat) ≤ 2 ^ s := Nat.one_le_two_pow
        exact ih (count - 2 ^ s) (by omega) _ (by omega) p hp2

/-- The greedy blocks are listed in strictly ascending address order. -/
lemma greedy_pairwise (W : Nat) :
    ∀ (count lo : Nat),
      List.Pairwise (fun p q : Nat × Nat => p.1 < q.1) (greedyBlocks W lo count) := by
  intro count
  induction count using Nat.strong_induction_on with
  | _ count ih =>
      intro lo
      by_cases hc : count = 0
      · subst hc
        rw [greedyBlocks, greedyF_zero]
        exact List.Pairwise.nil
      rw [greedyBlocks_unfold W lo count hc]
      set s := min (tzW W lo) (ilog2 count) with hs
      have hle : 2 ^ s ≤ count := greedy_step_le W lo count hc
      have hpos : (1 : Nat) ≤ 2 ^ s := Nat.one_le_two_pow
      refine List.Pairwise.cons ?_ (ih (count - 2 ^ s) (by omega) _)
      intro q hq
      have := greedy_block_range W _ _ q hq
      omega

/-- Counting greedy blocks from an offset `2^j` inside an aligned block
of size `2^k`: each intermediate power contributes exactly one block. -/
lemma greedy_chain_count (W : Nat) (k lo count : Nat)
    (hdvd : 2 ^ k ∣ lo) (hcnt : 2 ^ k ≤ count) :
    ∀ d j, j + d = k →
      (greedyBlocks W (lo + 2 ^ j) (count - 2 ^ j)).length =
        d + (greedyBlocks W (lo + 2 ^ k) (count - 2 ^ k)).length := by
  intro d
  induction d with
  | zero =>
      intro j hj
      have : j = k := by omega
      subst this
      omega
  | succ d ih =>
      intro j hj
      have hjk : j < k := by omega
      have hj1 : (2 : Nat) ^ (j + 1) ∣ lo :=
        Nat.dvd_trans (Nat.pow_dvd_pow 2 (by omega)) hdvd
      have hppos : ∀ m : Nat, (1 : Nat) ≤ 2 ^ m := fun m => Nat.one_le_two_pow
      have hmono : (2 : Nat) ^ (j + 1) ≤ 2 ^ k := Nat.pow_le_pow_right (by omega) (by omega)
      have hcj : count - 2 ^ j ≠ 0 := by
        have := hppos j
        have h2j1 : (2 : Nat) ^ (j + 1) = 2 * 2 ^ j := by ring
        omega
      have hntz : tzW W (lo + 2 ^ j) = j := by
        have hne : lo + 2 ^ j ≠ 0 := by have := hppos j; omega
        simp only [tzW, if_neg hne]
        exact ntz_add_pow lo j hj1
      have hlog : j ≤ ilog2 (count - 2 ^ j) := by
        apply le_ilog2 _ _ hcj
        have h2j1 : (2 : Nat) ^ (j + 1) = 2 * 2 ^ j := by ring
        omega
      have hmin : min (tzW W (lo + 2 ^ j)) (ilog2 (count - 2 ^ j)) = j := by
        rw [hntz]
        omega
      rw [greedyBlocks_unfold W _ _ hcj, hmin]
      have hsum : lo + 2 ^ j + 2 ^ j = lo + 2 ^ (j + 1) := by
        have : (2 : Nat) ^ (j + 1) = 2 * 2 ^ j := by ring
        omega
      have hsub : count - 2 ^ j - 2 ^ j = count - 2 ^ (j + 1) := by
        have : (2 : Nat) ^ (j + 1) = 2 * 2 ^ j := by ring
        omega
      rw [hsum, hsub, List.length_cons, ih (j + 1) (by omega)]
      omega

/-- A nonempty list has an element maximising any Nat valuation. -/
lemma exists_max_on {α : Type} (l : List α) (f : α → Nat) (h : l ≠ []) :
    ∃ m ∈ l, ∀ a ∈ l, f a ≤ f m := by
  induction l with
  | nil => cases h rfl
  | cons a rest ih =>
      cases rest with
      | nil => exact ⟨a, by simp, by simp⟩
      | cons b r2 =>
          rcases ih (by simp) with ⟨m, hm, hmax⟩
          by_cases hcmp : f a ≤ f m
          · refine ⟨m, by simp [hm], ?_⟩
            intro x hx
            rcases List.mem_cons.mp hx with rfl | hx2
            · exact hcmp
            · exact hmax x hx2
          · refine ⟨a, by simp, ?_⟩
            intro x hx
            rcases List.mem_cons.mp hx with rfl | hx2
            · exact Nat.le_refl _
            · exact Nat.le_trans (hmax x hx2) (by omega)

/-- Filtering drops at least one element when some member fails the test. -/
lemma filter_length_lt {α : Type} (l : List α) (p : α → Bool) (a : α)
    (ha : a ∈ l) (hpa : p a = false) : (l.filter p).length < l.length := by
  induction l with
  | nil => cases ha
  | cons b rest ih =>
      rw [List.filter_cons]
      rcases List.mem_cons.mp ha with rfl | ha2
      · have hlen := List.length_filter_le p rest
        simp [hpa]
        omega
      · by_cases hb : p b
        · have := ih ha2
          simp [hb]
          omega
        · have := ih ha2
          have hlen := List.length_filter_le p rest
          simp [hb]
          omega

/-- Two dyadic blocks sharing a point are nested: the smaller sits inside
the larger. -/
lemma dyadic_nested (a i b j x : Nat) (ha : 2 ^ i ∣ a) (hb : 2 ^ j ∣ b)
    (hij : i ≤ j) (hax : a ≤ x) (hax2 : x < a + 2 ^ i)
    (hbx : b ≤ x) (hbx2 : x < b + 2 ^ j) :
    b ≤ a ∧ a + 2 ^ i ≤ b + 2 ^ j := by
  have hpi : (0 : Nat) < 2 ^ i := Nat.pos_pow_of_pos i (by omega)
  have hpj : (0 : Nat) < 2 ^ j := Nat.pos_pow_of_pos j (by omega)
  -- the blocks are the aligned neighbourhoods of x
  have hxa : a = 2 ^ i * (x / 2 ^ i) := by
    rcases ha with ⟨qa, hqa⟩
    subst hqa
    congr 1
    rw [show x = 2 ^ i * qa + (x - 2 ^ i * qa) by omega]
    rw [Nat.mul_add_div hpi]
    have : x - 2 ^ i * qa < 2 ^ i := by omega
    rw [Nat.div_eq_of_lt this]
    try omega
  have hxb : b = 2 ^ j * (x / 2 ^ j) := by
    rcases hb with ⟨qb, hqb⟩
    subst hqb
    congr 1
    rw [show x = 2 ^ j * qb + (x - 2 ^ j * qb) by omega]
    rw [Nat.mul_add_div hpj]
    have : x - 2 ^ j * qb < 2 ^ j := by omega
    rw [Nat.div_eq_of_lt this]
    try omega
  have hea : a + x % 2 ^ i = x := by
    rw [hxa]
    exact Nat.div_add_mod x (2 ^ i)
  have heb : b + x % 2 ^ j = x := by
    rw [hxb]
    exact Nat.div_add_mod x (2 ^ j)
  have hdvdij : (2 : Nat) ^ i ∣ 2 ^ j := Nat.pow_dvd_pow 2 hij
  have hmm : x % 2 ^ j % 2 ^ i = x % 2 ^ i := Nat.mod_mod_of_dvd x hdvdij
  have hmle : x % 2 ^ i ≤ x % 2 ^ j := by
    rw [← hmm]
    exact Nat.mod_le _ _
  refine ⟨by omega, ?_⟩
  -- bound the gap: x % 2^j − x % 2^i is a multiple of 2^i below 2^j − 2^i
  rcases hdvdij with ⟨e, he⟩
  have hepos : (0 : Nat) < e := by
    rcases Nat.eq_zero_or_pos e with h0 | h1
    · rw [h0] at he
      simp at he
    · exact h1
  have hdecomp := Nat.div_add_mod (x % 2 ^ j) (2 ^ i)
  set c := x % 2 ^ j / 2 ^ i with hc
  have hcd : x % 2 ^ j = 2 ^ i * c + x % 2 ^ i := by
    rw [← hmm]
    omega
  have hjlt : x % 2 ^ j < 2 ^ j := Nat.mod_lt x hpj
  have hce : c < e := by
    by_contra hce
    have h1 : (2 : Nat) ^ i * e ≤ 2 ^ i * c := Nat.mul_le_mul_left _ (by omega)
    rw [← he] at h1
    omega
  have hgap : 2 ^ i * c ≤ 2 ^ j - 2 ^ i := by
    have h1 : (2 : Nat) ^ i * (c + 1) ≤ 2 ^ i * e := Nat.mul_le_mul_left _ (by omega)
    rw [← he] at h1
    have h2 : (2 : Nat) ^ i * (c + 1) = 2 ^ i * c + 2 ^ i := by ring
    omega
  generalize hg : 2 ^ i * c = g at hcd hgap
  have hpow : (2 : Nat) ^ i ≤ 2 ^ j := Nat.pow_le_pow_right (by omega) hij
  have hfin : x % 2 ^ j + 2 ^ i ≤ x % 2 ^ i + 2 ^ j := by omega
  omega

/-- C6 kernel, minimality: at a bounded count, no list of dyadic blocks
covering the interval exactly can be shorter than the greedy one. -/
lemma greedy_minimal (W : Nat) :
    ∀ (count lo : Nat) (bs : List (Nat × Nat)),
      count < 2 ^ W →
      (∀ p ∈ bs, 2 ^ p.2 ∣ p.1) →
      (∀ x, coveredBy bs x ↔ (lo ≤ x ∧ x < lo + count)) →
      (greedyBlocks W lo count).length ≤ bs.length := by
  intro count
  induction count using Nat.strong_induction_on with
  | _ count ih =>
      intro lo bs hcnt hvalid hcov
      by_cases hc : count = 0
      · subst hc
        rw [greedyBlocks, greedyF_zero]
        simp
      -- some block covers lo; take one of maximal size
      have hlo : coveredBy bs lo := (hcov lo).mpr ⟨Nat.le_refl _, by omega⟩
      rcases hlo with ⟨p0, hp0mem, hp0le, hp0lt⟩
      have hcands : bs.filter
          (fun p => decide (p.1 ≤ lo ∧ lo < p.1 + 2 ^ p.2)) ≠ [] := by
        intro hnil
        have : p0 ∈ bs.filter (fun p => decide (p.1 ≤ lo ∧ lo < p.1 + 2 ^ p.2)) := by
          rw [List.mem_filter]
          exact ⟨hp0mem, by simp [hp0le, hp0lt]⟩
        rw [hnil] at this
        cases this
      rcases exists_max_on _ (fun p : Nat × Nat => p.2) hcands with ⟨pm, hpmF, hpmMax⟩
      rcases List.mem_filter.mp hpmF with ⟨hpmBs, hpmCov⟩
      have hpmle : pm.1 ≤ lo ∧ lo < pm.1 + 2 ^ pm.2 := by simpa using hpmCov
      -- the maximal covering block starts exactly at lo and fits the range
      have hblocklo : ∀ y, pm.1 ≤ y → y < pm.1 + 2 ^ pm.2 → lo ≤ y ∧ y < lo + count :=
        fun y h1 h2 => (hcov y).mp ⟨pm, hpmBs, h1, h2⟩
      have hstart : pm.1 = lo := by
        have := (hblocklo pm.1 (Nat.le_refl _)
          (by have : (1 : Nat) ≤ 2 ^ pm.2 := Nat.one_le_two_pow; omega)).1
        omega
      have hsize : 2 ^ pm.2 ≤ count := by
        have h1 : (1 : Nat) ≤ 2 ^ pm.2 := Nat.one_le_two_pow
        have := (hblocklo (pm.1 + 2 ^ pm.2 - 1) (by omega) (by omega)).2
        omega
      -- the greedy step size dominates it
      have hk : pm.2 ≤ min (tzW W lo) (ilog2 count) := by
        refine Nat.le_min.mpr ⟨?_, ?_⟩
        · by_cases hlo0 : lo = 0
          · have h1 : (2 : Nat) ^ pm.2 ≤ count := hsize
            have h2 : pm.2 < W := by
              by_contra hge
              have : (2 : Nat) ^ W ≤ 2 ^ pm.2 := Nat.pow_le_pow_right (by omega) (by omega)
              omega
            simp [tzW, hlo0] <;> omega
          · have hdvd : 2 ^ pm.2 ∣ lo := by
              rw [← hstart]
              exact hvalid pm hpmBs
            simp [tzW, hlo0]
            exact le_ntz_of_dvd lo pm.2 hlo0 hdvd
        · exact le_ilog2 _ _ hc hsize
      set s := pm.2 with hsdef
      set k := min (tzW W lo) (ilog2 count) with hkdef
      have hpmdvd : 2 ^ s ∣ pm.1 := hvalid pm hpmBs
      have hlodvd : 2 ^ s ∣ lo := by
        rw [← hstart]
        exact hpmdvd
      -- every block that begins before lo + 2^s lies inside [lo, lo + 2^s)
      have hlow : ∀ p ∈ bs, p.1 < lo + 2 ^ s → p.1 + 2 ^ p.2 ≤ lo + 2 ^ s := by
        intro p hp hplt
        have hplo : lo ≤ p.1 := by
          have h1 : (1 : Nat) ≤ 2 ^ p.2 := Nat.one_le_two_pow
          exact ((hcov p.1).mp ⟨p, hp, Nat.le_refl _, by omega⟩).1
        by_cases hps : p.2 ≤ s
        · have := dyadic_nested p.1 p.2 pm.1 s p.1
            (hvalid p hp) hpmdvd hps
            (Nat.le_refl _)
            (by have : (1 : Nat) ≤ 2 ^ p.2 := Nat.one_le_two_pow; omega)
            (by omega) (by rw [hstart]; omega)
          rw [hstart] at this
          omega
        · -- a larger block through a point of [lo, lo+2^s) would cover lo,
          -- contradicting maximality of pm
          have := dyadic_nested pm.1 s p.1 p.2 p.1
            hpmdvd
            (hvalid p hp) (by omega)
            (by rw [hstart]; omega) (by rw [hstart]; omega)
            (Nat.le_refl _)
            (by have : (1 : Nat) ≤ 2 ^ p.2 := Nat.one_le_two_pow; omega)
          have hpcov : p.1 ≤ lo ∧ lo < p.1 + 2 ^ p.2 := by
            rw [hstart] at this
            have h1 : (1 : Nat) ≤ 2 ^ s := Nat.one_le_two_pow
            omega
          have hpC : p ∈ bs.filter
              (fun p => decide (p.1 ≤ lo ∧ lo < p.1 + 2 ^ p.2)) := by
            rw [List.mem_filter]
            exact ⟨hp, by simp [hpcov.1, hpcov.2]⟩
          have := hpmMax p hpC
          omega
      -- the remaining blocks exactly cover the rest of the interval
      have hcov2 : ∀ x, coveredBy (bs.filter (fun p => decide (lo + 2 ^ s ≤ p.1))) x
          ↔ (lo + 2 ^ s ≤ x ∧ x < lo + 2 ^ s + (count - 2 ^ s)) := by
        intro x
        constructor
        · rintro ⟨p, hpF, h1, h2⟩
          rcases List.mem_filter.mp hpF with ⟨hpBs, hpGe⟩
          have hge : lo + 2 ^ s ≤ p.1 := by simpa using hpGe
          have := (hcov x).mp ⟨p, hpBs, h1, h2⟩
          omega
        · rintro ⟨h1, h2⟩
          rcases (hcov x).mpr ⟨by omega, by omega⟩ with ⟨p, hpBs, hp1, hp2⟩
          refine ⟨p, ?_, hp1, hp2⟩
          rw [List.mem_filter]
          refine ⟨hpBs, ?_⟩
          simp only [decide_eq_true_eq]
          by_contra hlt
          have := hlow p hpBs (by omega)
          omega
      have hvalid2 : ∀ p ∈ bs.filter (fun p => decide (lo + 2 ^ s ≤ p.1)),
          2 ^ p.2 ∣ p.1 :=
        fun p hp => hvalid p (List.mem_filter.mp hp).1
      have hpos : (1 : Nat) ≤ 2 ^ s := Nat.one_le_two_pow
      have hrec := ih (count - 2 ^ s) (by omega) (lo + 2 ^ s)
        (bs.filter (fun p => decide (lo + 2 ^ s ≤ p.1))) (by omega) hvalid2 hcov2
      have hshort : (bs.filter (fun p => decide (lo + 2 ^ s ≤ p.1))).length
          < bs.length := by
        refine filter_length_lt bs _ pm hpmBs ?_
        simp only [decide_eq_false_iff_not]
        rw [hstart]
        omega
      -- relate the two greedy tails through the chain count
      have hkdvd : 2 ^ k ∣ lo := by
        by_cases hlo0 : lo = 0
        · simp [hlo0]
        · have : k ≤ ntz lo := by
            have : tzW W lo = ntz lo := by simp [tzW, hlo0]
            omega
          exact Nat.dvd_trans (Nat.pow_dvd_pow 2 this) (ntz_spec lo hlo0).1
      have hkcnt : 2 ^ k ≤ count := greedy_step_le W lo count hc
      have hchain := greedy_chain_count W k lo count hkdvd hkcnt (k - s) s (by omega)
      rw [greedyBlocks_unfold W lo count hc, List.length_cons, ← hkdef]
      omega

/-- The fold with an arbitrary accumulator. -/
lemma bytesToNat_acc (l : List Nat) :
    ∀ a, l.foldl (fun acc b => acc * 256 + b) a = a * 256 ^ l.length + bytesToNat l := by
  induction l with
  | nil => intro a; simp [bytesToNat]
  | cons b rest ih =>
      intro a
      have hb := ih (a * 256 + b)
      have h0 := ih b
      simp only [List.foldl_cons, List.length_cons]
      rw [hb]
      have : bytesToNat (b :: rest) = b * 256 ^ rest.length + bytesToNat rest := by
        simp only [bytesToNat, List.foldl_cons]
        simpa using h0
      rw [this]
      ring

/-- The fold over a concatenation. -/
lemma bytesToNat_append (u v : List Nat) :
    bytesToNat (u ++ v) = bytesToNat u * 256 ^ v.length + bytesToNat v := by
  simp only [bytesToNat, List.foldl_append]
  exact bytesToNat_acc v _

/-- The fold over a cons. -/
lemma bytesToNat_cons (b : Nat) (l : List Nat) :
    bytesToNat (b :: l) = b * 256 ^ l.length + bytesToNat l := by
  simp only [bytesToNat, List.foldl_cons]
  simpa using bytesToNat_acc l b

/-- Valid bytes fold below the radix power. -/
lemma bytesToNat_lt (l : List Nat) (h : ∀ b ∈ l, b < 256) :
    bytesToNat l < 256 ^ l.length := by
  induction l with
  | nil => simp [bytesToNat]
  | cons b rest ih =>
      rw [bytesToNat_cons]
      have hb : b < 256 := h b (by simp)
      have hr : bytesToNat rest < 256 ^ rest.length := ih (fun x hx => h x (by simp [hx]))
      have h1 : b * 256 ^ rest.length ≤ 255 * 256 ^ rest.length :=
        Nat.mul_le_mul_right _ (by omega)
      have h2 : (256 : Nat) ^ (rest.length + 1) = 256 * 256 ^ rest.length := by ring
      simp only [List.length_cons, h2]
      omega

/-- Valid byte lists are recovered from their value. -/
lemma beBytes_bytesToNat (l : List Nat) (h : ∀ b ∈ l, b < 256) :
    beBytes l.length (bytesToNat l) = l := by
  induction l using List.reverseRecOn with
  | nil => simp [beBytes, bytesToNat]
  | append_singleton u b ih =>
      have hb : b < 256 := h b (by simp)
      have hu : ∀ x ∈ u, x < 256 := fun x hx => h x (by simp [hx])
      rw [bytesToNat_append]
      simp only [List.length_append, List.length_singleton]
      rw [beBytes]
      have hvb : bytesToNat [b] = b := by simp [bytesToNat]
      rw [hvb]
      have hdiv : (bytesToNat u * 256 ^ 1 + b) / 256 = bytesToNat u := by
        rw [Nat.pow_one, Nat.mul_comm, Nat.mul_add_div (by omega)]
        rw [Nat.div_eq_of_lt hb]
        try omega
      have hmod : (bytesToNat u * 256 ^ 1 + b) % 256 = b := by
        rw [Nat.pow_one, Nat.mul_comm, Nat.mul_add_mod]
        exact Nat.mod_eq_of_lt hb
      rw [hdiv, hmod, ih hu]

/-- paths.rs `trailing_zeros` computes `tzW` of the byte value. -/
lemma tzBytes_eq (s : List Nat) (h : ∀ b ∈ s, b < 256) :
    trailingZerosBytes s = tzW (8 * s.length) (bytesToNat s) := by
  induction s using List.reverseRecOn with
  | nil => simp [trailingZerosBytes, tzBytesRev, tzW, bytesToNat]
  | append_singleton u b ih =>
      have hb : b < 256 := h b (by simp)
      have hu : ∀ x ∈ u, x < 256 := fun x hx => h x (by simp [hx])
      have hrev : trailingZerosBytes (u ++ [b]) =
          if b = 0 then 8 + trailingZerosBytes u else ntzF 8 b := by
        simp only [trailingZerosBytes, List.reverse_append, List.reverse_singleton,
          List.singleton_append, tzBytesRev]
      rw [hrev, bytesToNat_append]
      have hvb : bytesToNat [b] = b := by simp [bytesToNat]
      rw [hvb]
      simp only [List.length_append, List.length_singleton, Nat.pow_one]
      by_cases hb0 : b = 0
      · subst hb0
        rw [if_pos rfl, ih hu]
        by_cases hV : bytesToNat u = 0
        · rw [hV]
          simp [tzW]
          try ring
        · have hmul : bytesToNat u * 256 + 0 ≠ 0 := by
            rcases Nat.exists_eq_succ_of_ne_zero hV with ⟨m, hm⟩
            omega
          simp only [tzW, if_neg hV, if_neg hmul]
          rw [show bytesToNat u * 256 + 0 = 256 * bytesToNat u by ring]
          rw [ntz_mul_256 _ hV]
          try omega
      · rw [if_neg hb0]
        have hne : bytesToNat u * 256 + b ≠ 0 := by omega
        simp only [tzW, if_neg hne]
        rw [show bytesToNat u * 256 + b = 256 * bytesToNat u + b by ring]
        exact (ntz_mul_256_add (bytesToNat u) b hb0 hb).symm

/-- Each byte of a big-endian list is a radix digit of its value. -/
lemma getElem_bytesToNat :
    ∀ (s : List Nat), (∀ b ∈ s, b < 256) →
      ∀ j, (hj : j < s.length) →
        s[j] = bytesToNat s / 256 ^ (s.length - 1 - j) % 256 := by
  intro s
  induction s with
  | nil => intro _ j hj; cases hj
  | cons b rest ih =>
      intro h j hj
      have hb : b < 256 := h b (by simp)
      have hrest : ∀ x ∈ rest, x < 256 := fun x hx => h x (by simp [hx])
      cases j with
      | zero =>
          rw [bytesToNat_cons]
          simp only [List.getElem_cons_zero, List.length_cons,
            Nat.add_sub_cancel, Nat.sub_zero]
          have hR : bytesToNat rest < 256 ^ rest.length := bytesToNat_lt rest hrest
          rw [show b * 256 ^ rest.length + bytesToNat rest
              = 256 ^ rest.length * b + bytesToNat rest by ring]
          rw [Nat.mul_add_div (Nat.pos_pow_of_pos _ (by omega)),
            Nat.div_eq_of_lt hR]
          rw [Nat.add_zero, Nat.mod_eq_of_lt hb]
      | succ j =>
          have hjr : j < rest.length := by
            simp at hj
            omega
          rw [bytesToNat_cons]
          simp only [List.getElem_cons_succ, List.length_cons]
          rw [ih hrest j hjr]
          have hsplit : (256 : Nat) ^ rest.length
              = 256 ^ (rest.length - 1 - j) * 256 ^ (j + 1) := by
            rw [← Nat.pow_add]
            congr 1
            omega
          rw [show rest.length + 1 - 1 - (j + 1) = rest.length - 1 - j by omega]
          rw [hsplit]
          rw [show b * (256 ^ (rest.length - 1 - j) * 256 ^ (j + 1))
              = 256 ^ (rest.length - 1 - j) * (256 ^ (j + 1) * b) by ring]
          rw [Nat.mul_add_div (Nat.pos_pow_of_pos _ (by omega))]
          rw [show 256 ^ (j + 1) * b + bytesToNat rest / 256 ^ (rest.length - 1 - j)
              = bytesToNat rest / 256 ^ (rest.length - 1 - j) + 256 * (256 ^ j * b)
              by ring]
          rw [Nat.add_mul_mod_self_left]

/-- Alignment bound: the byte receiving the carry has its low bits clear,
so adding the shifted one cannot pass 256. -/
lemma aligned_byte_bound (s : List Nat) (h : ∀ b ∈ s, b < 256) (suf : Nat)
    (hsuf : 2 ^ suf ∣ bytesToNat s) (hj : suf / 8 + 1 ≤ s.length)
    (hjlt : s.length - suf / 8 - 1 < s.length) :
    s[s.length - suf / 8 - 1] + 2 ^ (suf % 8) ≤ 256 := by
  rcases hsuf with ⟨m, hm⟩
  have hbyte := getElem_bytesToNat s h (s.length - suf / 8 - 1) hjlt
  rw [show s.length - 1 - (s.length - suf / 8 - 1) = suf / 8 by omega] at hbyte
  have hsplit : (2 : Nat) ^ suf = 256 ^ (suf / 8) * 2 ^ (suf % 8) := by
    rw [show (256 : Nat) = 2 ^ 8 by norm_num, ← Nat.pow_mul, ← Nat.pow_add]
    congr 1
    omega
  rw [hm, hsplit] at hbyte
  rw [show 256 ^ (suf / 8) * 2 ^ (suf % 8) * m
      = 256 ^ (suf / 8) * (2 ^ (suf % 8) * m) by ring] at hbyte
  rw [Nat.mul_div_cancel_left _ (Nat.pos_pow_of_pos _ (by omega))] at hbyte
  have h256 : (256 : Nat) = 2 ^ (suf % 8) * 2 ^ (8 - suf % 8) := by
    rw [← Nat.pow_add, show suf % 8 + (8 - suf % 8) = 8 by omega]
  rw [h256, Nat.mul_mod_mul_left] at hbyte
  have hlt : m % 2 ^ (8 - suf % 8) < 2 ^ (8 - suf % 8) :=
    Nat.mod_lt _ (Nat.pos_pow_of_pos _ (by omega))
  have hle : m % 2 ^ (8 - suf % 8) + 1 ≤ 2 ^ (8 - suf % 8) := hlt
  calc s[s.length - suf / 8 - 1] + 2 ^ (suf % 8)
      = 2 ^ (suf % 8) * (m % 2 ^ (8 - suf % 8)) + 2 ^ (suf % 8) := by rw [hbyte]
    _ = 2 ^ (suf % 8) * (m % 2 ^ (8 - suf % 8) + 1) := by ring
    _ ≤ 2 ^ (suf % 8) * 2 ^ (8 - suf % 8) := Nat.mul_le_mul_left _ hle
    _ = 256 := by rw [← h256]

/-- Correctness of the carry loop: managed as addition with carry into
the length-(j+1) prefix, modulo that prefix overflowing at byte 0. -/
lemma carryLoop_spec :
    ∀ (j : Nat) (s : List Nat) (add : Nat),
      j < s.length → (∀ b ∈ s, b < 256) → 1 ≤ add →
      (∀ (hj : j < s.length), s[j] + add ≤ 256) →
      ∃ t, carryLoop s j add = some t ∧ t.length = s.length ∧
        (∀ b ∈ t, b < 256) ∧
        bytesToNat t =
          (bytesToNat (s.take (j + 1)) + add) % 256 ^ (j + 1)
            * 256 ^ (s.length - j - 1) + bytesToNat (s.drop (j + 1)) := by
  intro j
  induction j with
  | zero =>
      intro s add hj hbytes hadd hexact
      rcases s with _ | ⟨b, rest⟩
      · cases hj
      have hb : b < 256 := hbytes b (by simp)
      have hbe : (b :: rest)[0] = b := rfl
      have hex := hexact hj
      rw [hbe] at hex
      by_cases hover : b + add ≤ 255
      · refine ⟨(b + add) :: rest, by simp [carryLoop, hover], by simp, ?_, ?_⟩
        · intro x hx
          rcases List.mem_cons.mp hx with h1 | h1
          · omega
          · exact hbytes x (by simp [h1])
        · rw [bytesToNat_cons]
          simp only [List.take_succ_cons, List.take_zero, List.drop_succ_cons,
            List.drop_zero, List.length_cons, Nat.sub_zero, Nat.add_sub_cancel,
            Nat.zero_add, pow_one]
          have h1 : bytesToNat [b] = b := by simp [bytesToNat]
          rw [h1, Nat.mod_eq_of_lt (show b + add < 256 by omega)]
      · refine ⟨0 :: rest, by simp [carryLoop, hover], by simp, ?_, ?_⟩
        · intro x hx
          rcases List.mem_cons.mp hx with h1 | h1
          · omega
          · exact hbytes x (by simp [h1])
        · rw [bytesToNat_cons]
          simp only [List.take_succ_cons, List.take_zero, List.drop_succ_cons,
            List.drop_zero, List.length_cons, Nat.sub_zero, Nat.add_sub_cancel,
            Nat.zero_add, pow_one]
          have h1 : bytesToNat [b] = b := by simp [bytesToNat]
          rw [h1, show b + add = 256 by omega]
  | succ j ih =>
      intro s add hj hbytes hadd hexact
      have hb : s[j+1] < 256 := hbytes _ (List.getElem_mem hj)
      have hsome : s[j+1]? = some s[j+1] := List.getElem?_eq_getElem hj
      have hex := hexact hj
      have htl : (s.take (j+1)).length = j + 1 := by
        rw [List.length_take]
        omega
      have htake2 : s.take (j+2) = s.take (j+1) ++ [s[j+1]] := by
        rw [List.take_succ, hsome]
        rfl
      have hone : bytesToNat [s[j+1]] = s[j+1] := by simp [bytesToNat]
      have hP : bytesToNat (s.take (j+1)) < 256 ^ (j+1) := by
        have h := bytesToNat_lt (s.take (j+1))
          (fun x hx => hbytes x (List.mem_of_mem_take hx))
        rwa [htl] at h
      by_cases hover : s[j+1] + add ≤ 255
      · refine ⟨s.set (j+1) (s[j+1] + add), by simp [carryLoop, hsome, hover],
          by simp, ?_, ?_⟩
        · intro x hx
          rcases List.mem_or_eq_of_mem_set hx with h1 | h1
          · exact hbytes x h1
          · omega
        · have hset : s.set (j+1) (s[j+1] + add)
              = s.take (j+1) ++ (s[j+1] + add) :: s.drop (j+2) :=
            List.set_eq_take_cons_drop _ hj
          rw [hset, bytesToNat_append, bytesToNat_cons, htake2, bytesToNat_append,
            hone]
          simp only [List.length_cons, List.length_nil, List.length_drop,
            List.length_set, Nat.zero_add, pow_one]
          rw [show j + 1 + 1 = j + 2 by omega]
          have hbound : bytesToNat (s.take (j+1)) * 256 + s[j+1] + add
              < 256 ^ (j + 2) := by
            have hpow : (256:Nat) ^ (j + 2) = 256 ^ (j+1) * 256 := by ring
            omega
          rw [Nat.mod_eq_of_lt hbound]
          rw [show s.length - (j+2) + 1 = s.length - (j+1) - 1 + 1 by omega,
            show s.length - (j+2) = s.length - (j+1) - 1 by omega]
          ring
      · have hadd256 : s[j+1] + add = 256 := by omega
        have hcl : carryLoop s (j+1) add = carryLoop (s.set (j+1) 0) j 1 := by
          simp [carryLoop, hsome, hover]
        have hbytes2 : ∀ b ∈ s.set (j+1) 0, b < 256 := by
          intro x hx
          rcases List.mem_or_eq_of_mem_set hx with h1 | h1
          · exact hbytes x h1
          · omega
        have hj2 : j < (s.set (j+1) 0).length := by
          rw [List.length_set]
          omega
        have hex2 : ∀ (h : j < (s.set (j+1) 0).length),
            (s.set (j+1) 0)[j] + 1 ≤ 256 := by
          intro h
          have := hbytes2 _ (List.getElem_mem h)
          omega
        obtain ⟨t, ht1, ht2, ht3, ht4⟩ := ih (s.set (j+1) 0) 1 hj2 hbytes2
          (le_refl 1) hex2
        have hsetdec : s.set (j+1) 0 = s.take (j+1) ++ 0 :: s.drop (j+2) :=
          List.set_eq_take_cons_drop _ hj
        have htakeq : (s.set (j+1) 0).take (j+1) = s.take (j+1) := by
          rw [hsetdec]
          have h := List.take_left (s.take (j+1)) (0 :: s.drop (j+2))
          rwa [htl] at h
        have hdropq : (s.set (j+1) 0).drop (j+1) = 0 :: s.drop (j+2) := by
          rw [hsetdec]
          have h := List.drop_left (s.take (j+1)) (0 :: s.drop (j+2))
          rwa [htl] at h
        refine ⟨t, by rw [hcl, ht1], by simp [ht2], ht3, ?_⟩
        rw [ht4, htakeq, hdropq, bytesToNat_cons]
        simp only [List.length_set, List.length_drop, Nat.zero_mul, Nat.zero_add]
        rw [htake2, bytesToNat_append, hone]
        simp only [List.length_cons, List.length_nil, Nat.zero_add, pow_one]
        rw [show j + 1 + 1 = j + 2 by omega]
        rw [show bytesToNat (s.take (j+1)) * 256 + s[j+1] + add
            = 256 * (bytesToNat (s.take (j+1)) + 1) by omega]
        rw [show (256:Nat) ^ (j + 2) = 256 * 256 ^ (j+1) by ring]
        rw [Nat.mul_mod_mul_left]
        rw [show s.length - j - 1 = s.length - (j+1) - 1 + 1 by omega]
        ring

/-- Bytes rendered from a value below the width are bounded. -/
lemma beBytes_lt (n v : Nat) : ∀ b ∈ beBytes n v, b < 256 := by
  induction n generalizing v with
  | zero => intro b hb; cases hb
  | succ n ih =>
      intro b hb
      rw [beBytes] at hb
      rcases List.mem_append.mp hb with h | h
      · exact ih _ b h
      · simp at h
        omega

/-- Zero remaining count stops the octet loop at any fuel. -/
lemma octetsF_zero (N : Nat) : ∀ f start, octetsF N f start 0 = some [] := by
  intro f start
  cases f <;> simp [octetsF]

/-- One unfolding of the octet loop when the carry add-up and the
recursive call both succeed. -/
lemma octetsF_unfold (N f : Nat) (start : List Nat) (count : Nat) (hc : count ≠ 0)
    (hpanic : ¬ N < min (trailingZerosBytes start) (ilog2 count) / 8 + 1)
    (t : List Nat) (rest : List (List Nat × Nat))
    (hcl : carryLoop start
        (N - min (trailingZerosBytes start) (ilog2 count) / 8 - 1)
        (1 <<< (min (trailingZerosBytes start) (ilog2 count) % 8)) = some t)
    (hrec : octetsF N f t
        (count - 1 <<< min (trailingZerosBytes start) (ilog2 count)) = some rest) :
    octetsF N (f+1) start count =
      some ((start,
        N * 8 - min (trailingZerosBytes start) (ilog2 count)) :: rest) := by
  rw [octetsF, if_neg hc, if_neg hpanic, hcl]
  simp only [hrec]

/-- The byte-level loop of `octets_with_mask` computes exactly the greedy
decomposition on address values, rendered back to big-endian octets, as
long as the range stays inside the `N`-byte address space and the count
is below the full space (where the code panics instead). -/
lemma octetsF_eq_greedy (N : Nat) (hN : 0 < N) :
    ∀ (f : Nat) (start : List Nat) (count : Nat),
      start.length = N → (∀ b ∈ start, b < 256) →
      count ≤ f → count < 2 ^ (8 * N) →
      bytesToNat start + count ≤ 2 ^ (8 * N) →
      octetsF N f start count =
        some ((greedyF (8 * N) f (bytesToNat start) count).map
          (fun p => (beBytes N p.1, 8 * N - p.2))) := by
  intro f
  induction f with
  | zero =>
      intro start count hlen hbytes hf hcnt hspace
      have hc0 : count = 0 := by omega
      subst hc0
      simp [octetsF, greedyF]
  | succ f ih =>
      intro start count hlen hbytes hf hcnt hspace
      by_cases hc : count = 0
      · subst hc
        rw [octetsF_zero, greedyF_zero]
        rfl
      have htz : trailingZerosBytes start = tzW (8 * N) (bytesToNat start) := by
        have h := tzBytes_eq start hbytes
        rwa [hlen] at h
      set V := bytesToNat start with hV
      set m := min (tzW (8 * N) V) (ilog2 count) with hm
      have hilog : ilog2 count < 8 * N := ilog2_lt_of_lt_pow count (8 * N) hc hcnt
      have hm8 : m < 8 * N := by omega
      have hKN : m / 8 < N := by omega
      have hpos : (1 : Nat) ≤ 2 ^ m := Nat.one_le_two_pow
      have hdvd : 2 ^ m ∣ V := by
        by_cases hV0 : V = 0
        · simp [hV0]
        · have h1 : tzW (8 * N) V = ntz V := by simp [tzW, hV0]
          have h2 : m ≤ ntz V := by omega
          exact Nat.dvd_trans (Nat.pow_dvd_pow 2 h2) (ntz_spec V hV0).1
      have hstep : 2 ^ m ≤ count := greedy_step_le (8 * N) V count hc
      have hjlt : N - m / 8 - 1 < start.length := by omega
      have hexact : ∀ (h2 : N - m / 8 - 1 < start.length),
          start[N - m / 8 - 1] + 2 ^ (m % 8) ≤ 256 := by
        intro h2
        have h3 := aligned_byte_bound start hbytes m hdvd (by omega) (by omega)
        simp only [hlen] at h3
        exact h3
      obtain ⟨t, ht1, ht2, ht3, ht4⟩ :=
        carryLoop_spec (N - m / 8 - 1) start (2 ^ (m % 8)) hjlt hbytes
          Nat.one_le_two_pow hexact
      have hdplen : (start.drop (N - m / 8)).length = m / 8 := by
        rw [List.length_drop, hlen]
        omega
      have hsplitV : V = bytesToNat (start.take (N - m / 8)) * 256 ^ (m / 8)
          + bytesToNat (start.drop (N - m / 8)) := by
        conv_lhs => rw [hV, ← List.take_append_drop (N - m / 8) start]
        rw [bytesToNat_append, hdplen]
      have h256 : (256 : Nat) ^ (m / 8) = 2 ^ (8 * (m / 8)) := by
        rw [show (256 : Nat) = 2 ^ 8 by norm_num, ← Nat.pow_mul]
      have hDlt : bytesToNat (start.drop (N - m / 8)) < 256 ^ (m / 8) := by
        have h := bytesToNat_lt (start.drop (N - m / 8))
          (fun x hx => hbytes x (List.mem_of_mem_drop hx))
        rwa [hdplen] at h
      have hmod : V % 256 ^ (m / 8) = bytesToNat (start.drop (N - m / 8)) := by
        rw [hsplitV, show bytesToNat (start.take (N - m / 8)) * 256 ^ (m / 8)
            = 256 ^ (m / 8) * bytesToNat (start.take (N - m / 8)) by ring,
          Nat.mul_add_mod, Nat.mod_eq_of_lt hDlt]
      have hzero : V % 256 ^ (m / 8) = 0 := by
        rw [h256]
        exact Nat.dvd_iff_mod_eq_zero.mp
          (Nat.dvd_trans (Nat.pow_dvd_pow 2 (by omega)) hdvd)
      have hD : bytesToNat (start.drop (N - m / 8)) = 0 := by
        rw [← hmod, hzero]
      have hsplitV2 : V = bytesToNat (start.take (N - m / 8)) * 256 ^ (m / 8) := by
        rw [hsplitV, hD, Nat.add_zero]
      have h2m : (2 : Nat) ^ m = 256 ^ (m / 8) * 2 ^ (m % 8) := by
        rw [show (256 : Nat) = 2 ^ 8 by norm_num, ← Nat.pow_mul, ← Nat.pow_add]
        congr 1
        omega
      have h2W : (2 : Nat) ^ (8 * N) = 256 ^ (N - m / 8) * 256 ^ (m / 8) := by
        rw [show (256 : Nat) = 2 ^ 8 by norm_num, ← Nat.pow_mul, ← Nat.pow_mul,
          ← Nat.pow_add]
        congr 1
        omega
      have hvalmod : bytesToNat t = (V + 2 ^ m) % 2 ^ (8 * N) := by
        rw [hlen] at ht4
        rw [show N - m / 8 - 1 + 1 = N - m / 8 by omega] at ht4
        rw [show N - (N - m / 8 - 1) - 1 = m / 8 by omega] at ht4
        rw [hD, Nat.add_zero] at ht4
        rw [ht4, hsplitV2, h2m, h2W]
        rw [show bytesToNat (start.take (N - m / 8)) * 256 ^ (m / 8)
            + 256 ^ (m / 8) * 2 ^ (m % 8)
            = (bytesToNat (start.take (N - m / 8)) + 2 ^ (m % 8)) * 256 ^ (m / 8)
            by ring]
        rw [Nat.mul_mod_mul_right]
      have hrec : octetsF N f t (count - 2 ^ m) =
          some ((greedyF (8 * N) f (V + 2 ^ m) (count - 2 ^ m)).map
            (fun p => (beBytes N p.1, 8 * N - p.2))) := by
        rcases Nat.lt_or_ge (V + 2 ^ m) (2 ^ (8 * N)) with hlt | hge
        · have hvt : bytesToNat t = V + 2 ^ m := by
            rw [hvalmod, Nat.mod_eq_of_lt hlt]
          have h := ih t (count - 2 ^ m) (by omega) ht3 (by omega) (by omega)
            (by omega)
          rwa [hvt] at h
        · have hc2 : count - 2 ^ m = 0 := by omega
          rw [hc2, octetsF_zero, greedyF_zero]
          rfl
      have hpanic : ¬ N < min (trailingZerosBytes start) (ilog2 count) / 8 + 1 := by
        rw [htz, ← hm]
        omega
      have hclx : carryLoop start
          (N - min (trailingZerosBytes start) (ilog2 count) / 8 - 1)
          (1 <<< (min (trailingZerosBytes start) (ilog2 count) % 8)) = some t := by
        rw [htz, ← hm, Nat.shiftLeft_eq, Nat.one_mul]
        exact ht1
      have hrecx : octetsF N f t
          (count - 1 <<< min (trailingZerosBytes start) (ilog2 count))
          = some ((greedyF (8 * N) f (V + 2 ^ m) (count - 2 ^ m)).map
            (fun p => (beBytes N p.1, 8 * N - p.2))) := by
        rw [htz, ← hm, Nat.shiftLeft_eq, Nat.one_mul]
        exact hrec
      rw [octetsF_unfold N f start count hc hpanic t _ hclx hrecx]
      rw [htz, ← hm]
      have hgreedy : greedyF (8 * N) (f + 1) V count
          = (V, m) :: greedyF (8 * N) f (V + 2 ^ m) (count - 2 ^ m) := by
        rw [greedyF, if_neg hc, ← hm]
      rw [hgreedy]
      simp only [List.map_cons]
      have hstart : beBytes N V = start := by
        rw [hV]
        have h := beBytes_bytesToNat start hbytes
        rwa [hlen] at h
      rw [hstart, show N * 8 = 8 * N by ring]

/-- Rendering value-level dyadic blocks to (octets, mask) pairs preserves
the covered set, as long as blocks fit the address width. -/
lemma coveredByCidr_map (N : Nat) (gb : List (Nat × Nat))
    (hb : ∀ p ∈ gb, p.1 < 2 ^ (8 * N) ∧ p.2 ≤ 8 * N) (x : Nat) :
    coveredByCidr N (gb.map (fun p => (beBytes N p.1, 8 * N - p.2))) x
      ↔ coveredBy gb x := by
  have hpow : (256 : Nat) ^ N = 2 ^ (8 * N) := by
    rw [show (256 : Nat) = 2 ^ 8 by norm_num, ← Nat.pow_mul]
  simp only [coveredByCidr, coveredBy]
  constructor
  · rintro ⟨q, hq, h1, h2⟩
    rcases List.mem_map.mp hq with ⟨p, hp, hqe⟩
    rcases hb p hp with ⟨hp1, hp2⟩
    have hbe : bytesToNat (beBytes N p.1) = p.1 :=
      bytesToNat_beBytes_of_lt N p.1 (by omega)
    have hq1 : q.1 = beBytes N p.1 := by rw [← hqe]
    have hq2 : q.2 = 8 * N - p.2 := by rw [← hqe]
    rw [hq1, hbe] at h1
    rw [hq1, hbe, hq2, show 8 * N - (8 * N - p.2) = p.2 by omega] at h2
    exact ⟨p, hp, h1, h2⟩
  · rintro ⟨p, hp, h1, h2⟩
    rcases hb p hp with ⟨hp1, hp2⟩
    have hbe : bytesToNat (beBytes N p.1) = p.1 :=
      bytesToNat_beBytes_of_lt N p.1 (by omega)
    refine ⟨(beBytes N p.1, 8 * N - p.2), List.mem_map.mpr ⟨p, hp, rfl⟩, ?_, ?_⟩
    · simpa [hbe] using h1
    · simpa [hbe, show 8 * N - (8 * N - p.2) = p.2 by omega] using h2

/-- Rendering preserves the strictly ascending address order. -/
lemma pairwise_map_cidr (N : Nat) (gb : List (Nat × Nat))
    (hb : ∀ p ∈ gb, p.1 < 2 ^ (8 * N))
    (h : gb.Pairwise (fun p q => p.1 < q.1)) :
    (gb.map (fun p => (beBytes N p.1, 8 * N - p.2))).Pairwise
      (fun p q : List Nat × Nat => bytesToNat p.1 < bytesToNat q.1) := by
  have hpow : (256 : Nat) ^ N = 2 ^ (8 * N) := by
    rw [show (256 : Nat) = 2 ^ 8 by norm_num, ← Nat.pow_mul]
  rw [List.pairwise_map]
  refine List.Pairwise.imp_of_mem (fun ha hb2 hr => ?_) h
  show bytesToNat (beBytes N _) < bytesToNat (beBytes N _)
  rw [bytesToNat_beBytes_of_lt N _ (by rw [hpow]; exact hb _ ha),
    bytesToNat_beBytes_of_lt N _ (by rw [hpow]; exact hb _ hb2)]
  exact hr

/-- C6 counterexample: at `count = 2 ^ 32` from start `0.0.0.0` the
claimed precondition `start + count ≤ 2^(8N)` holds, yet
`octets_with_mask` panics (the byte index `N - suffix/8 - 1`
underflows), modeled as `none`, instead of returning the single block
`0.0.0.0/0`. -/
theorem octetsWithMask_full_space_panics :
    octetsWithMask 4 [0, 0, 0, 0] (2 ^ 32) = none ∧
      bytesToNat [0, 0, 0, 0] + 2 ^ 32 ≤ 2 ^ (8 * 4) := by
  constructor
  · rfl
  · decide

/-- C6: for every `N`-byte start address and every count with
`start + count ≤ 2^(8N)` AND `count < 2^(8N)` (the full-space case
`count = 2^(8N)` panics, see the counterexample), `octets_with_mask`
returns exactly the greedy list of CIDR blocks — each taken at the
current start with suffix `min(trailing_zeros(start), ilog2(count))`,
i.e. mask `8N` minus that suffix — and this list exactly covers
`[start, start+count)`, is in strictly ascending address order, and is
minimal among all CIDR lists exactly covering the range; `count = 0`
yields the empty list. -/
theorem octetsWithMask_correct (N : Nat) (start : List Nat) (count : Nat)
    (hN : 0 < N) (hlen : start.length = N) (hbytes : ∀ b ∈ start, b < 256)
    (hcnt : count < 2 ^ (8 * N))
    (hspace : bytesToNat start + count ≤ 2 ^ (8 * N)) :
    ∃ out, octetsWithMask N start count = some out ∧
      out = (greedyBlocks (8 * N) (bytesToNat start) count).map
          (fun p => (beBytes N p.1, 8 * N - p.2)) ∧
      (∀ x, coveredByCidr N out x ↔
        (bytesToNat start ≤ x ∧ x < bytesToNat start + count)) ∧
      out.Pairwise (fun p q => bytesToNat p.1 < bytesToNat q.1) ∧
      (∀ cs : List (List Nat × Nat),
        (∀ p ∈ cs, p.2 ≤ 8 * N ∧ 2 ^ (8 * N - p.2) ∣ bytesToNat p.1) →
        (∀ x, coveredByCidr N cs x ↔
          (bytesToNat start ≤ x ∧ x < bytesToNat start + count)) →
        out.length ≤ cs.length) ∧
      (count = 0 → out = []) := by
  have hvb : ∀ p ∈ greedyBlocks (8 * N) (bytesToNat start) count,
      p.1 < 2 ^ (8 * N) ∧ p.2 ≤ 8 * N := by
    intro p hp
    have h1 := greedy_block_range (8 * N) count (bytesToNat start) p hp
    have h2 := greedy_valid (8 * N) count (bytesToNat start) hcnt p hp
    exact ⟨by omega, by omega⟩
  refine ⟨(greedyBlocks (8 * N) (bytesToNat start) count).map
      (fun p => (beBytes N p.1, 8 * N - p.2)), ?_, rfl, ?_, ?_, ?_, ?_⟩
  · exact octetsF_eq_greedy N hN count start count hlen hbytes
      (Nat.le_refl count) hcnt hspace
  · intro x
    exact (coveredByCidr_map N _ hvb x).trans
      (greedy_cover (8 * N) count (bytesToNat start) x)
  · exact pairwise_map_cidr N _ (fun p hp => (hvb p hp).1)
      (greedy_pairwise (8 * N) count (bytesToNat start))
  · intro cs hvalid hcov
    have hbs : ∀ q ∈ cs.map (fun p : List Nat × Nat => (bytesToNat p.1, 8 * N - p.2)),
        2 ^ q.2 ∣ q.1 := by
      intro q hq
      rcases List.mem_map.mp hq with ⟨p, hp, hqe⟩
      have hq1 : q.1 = bytesToNat p.1 := by rw [← hqe]
      have hq2 : q.2 = 8 * N - p.2 := by rw [← hqe]
      rw [hq1, hq2]
      exact (hvalid p hp).2
    have hcov2 : ∀ x,
        coveredBy (cs.map (fun p : List Nat × Nat => (bytesToNat p.1, 8 * N - p.2))) x
          ↔ (bytesToNat start ≤ x ∧ x < bytesToNat start + count) := by
      intro x
      rw [← hcov x]
      simp only [coveredBy, coveredByCidr]
      constructor
      · rintro ⟨q, hq, h1, h2⟩
        rcases List.mem_map.mp hq with ⟨p, hp, hqe⟩
        subst hqe
        exact ⟨p, hp, h1, h2⟩
      · rintro ⟨p, hp, h1, h2⟩
        exact ⟨(bytesToNat p.1, 8 * N - p.2), List.mem_map.mpr ⟨p, hp, rfl⟩, h1, h2⟩
    have hmin := greedy_minimal (8 * N) count (bytesToNat start)
      (cs.map (fun p : List Nat × Nat => (bytesToNat p.1, 8 * N - p.2)))
      hcnt hbs hcov2
    rw [List.length_map] at hmin
    rw [List.length_map]
    exact hmin
  · intro hc0
    subst hc0
    rfl

/-- C6 witness: the amended statement evaluated at the 4-byte address
1.0.0.240 with count 32, which splits into 1.0.0.240/28 and 1.0.1.0/28. -/
theorem octetsWithMask_correct_witness :
    0 < 4 ∧ ([1, 0, 0, 240] : List Nat).length = 4 ∧
      (∀ b ∈ ([1, 0, 0, 240] : List Nat), b < 256) ∧
      32 < 2 ^ (8 * 4) ∧ bytesToNat [1, 0, 0, 240] + 32 ≤ 2 ^ (8 * 4) ∧
      (∃ out, octetsWithMask 4 [1, 0, 0, 240] 32 = some out ∧
        out = (greedyBlocks (8 * 4) (bytesToNat [1, 0, 0, 240]) 32).map
            (fun p => (beBytes 4 p.1, 8 * 4 - p.2)) ∧
        (∀ x, coveredByCidr 4 out x ↔
          (bytesToNat [1, 0, 0, 240] ≤ x ∧ x < bytesToNat [1, 0, 0, 240] + 32)) ∧
        out.Pairwise (fun p q => bytesToNat p.1 < bytesToNat q.1) ∧
        (∀ cs : List (List Nat × Nat),
          (∀ p ∈ cs, p.2 ≤ 8 * 4 ∧ 2 ^ (8 * 4 - p.2) ∣ bytesToNat p.1) →
          (∀ x, coveredByCidr 4 cs x ↔
            (bytesToNat [1, 0, 0, 240] ≤ x ∧ x < bytesToNat [1, 0, 0, 240] + 32)) →
          out.length ≤ cs.length) ∧
        (32 = 0 → out = [])) :=
  ⟨by decide, by decide, by decide, by decide, by decide,
    octetsWithMask_correct 4 [1, 0, 0, 240] 32 (by decide) (by decide)
      (by decide) (by decide) (by decide)⟩

end Mmdb
